import Mathlib

/-
  Verification development for the lexical-matching and disambiguation core
  of the Reynir NLP engine (ReynirPackage).

  The definitions below are shallow embeddings of the Python sources:
    - src/reynir/binparser.py   (BIN_Token, VariantHandler, terminal matching)
    - src/reynir/reducer.py     (ReductionInfo, ParseForestReducer, Reducer)
    - src/reynir/dawgdictionary.py (CompoundNavigator, PackedDawgDictionary)
    - src/reynir/bindb.py       (BIN_Db._lookup and helpers)

  Python strings are modelled as Lean String (or List Char where slicing is
  pervasive); Python arbitrary-precision ints as Nat/Int; Python dicts keyed
  by small indices as association lists kept in insertion order; fallible
  operations (assertions, IndexError/KeyError) as Option.
-/

set_option maxRecDepth 8000

namespace Reynir

/-! ### Variant bit machinery (binparser.py, class BIN_Token, lines 112-192) -/

/-- The keys of BIN_Token.VARIANT in source (dict insertion) order.
    VBIT maps the key at index i to bit 1 <<< i. -/
def variantKeys : List String :=
  ["nf", "þf", "þgf", "ef", "kk", "kvk", "hk", "et", "ft", "mst", "est", "esb",
   "evb", "p1", "p2", "p3", "op", "gm", "mm", "sb", "vb", "nh", "fh", "bh",
   "lh", "vh", "nt", "sagnb", "lhþt", "gr", "abbrev", "subj", "sþf", "sþgf", "sef"]

/-- The values of BIN_Token.VARIANT, aligned with variantKeys; none marks the
    variants that have no corresponding BIN meaning string. -/
def variantBinForms : List (Option String) :=
  [some "NF", some "ÞF", some "ÞGF", some "EF", some "KK", some "KVK", some "HK",
   some "ET", some "FT", some "MST", some "EST", some "ESB", some "EVB",
   some "1P", some "2P", some "3P", some "OP", some "GM", some "MM", some "SB",
   some "VB", some "NH", some "FH", some "BH", some "LH", some "VH", some "NT",
   some "SAGNB", some "LHÞT", some "gr", none, none, none, none, none]

/-- Index of the first occurrence of a key in a list (the VARIANT dict has
    distinct keys, so this is the key's unique position). -/
def lookupIdx : List String → String → Option Nat
  | [], _ => none
  | a :: l, v => if a = v then some 0 else (lookupIdx l v).map (· + 1)

/-- BIN_Token.VBIT: bit for a variant name (0 for names outside the table,
    matching the guarded accesses in the source). -/
def VBIT (v : String) : Nat :=
  match lookupIdx variantKeys v with
  | some i => 2 ^ i
  | none => 0

/-- BIN_Token.FBIT as an association list: BIN grammatical-form marker string
    to its bit, with the same bit index as the corresponding VBIT entry. -/
def fbitPairs : List (String × Nat) :=
  variantKeys.enum.filterMap fun p =>
    match variantBinForms.get? p.1 with
    | some (some s) => some (s, 2 ^ p.1)
    | _ => none

/-- Python substring containment: needle in hay. -/
def strContains (hay needle : String) : Bool :=
  decide (needle.data <:+: hay.data)

/-- BIN_Token.fbits: fold the FBIT bits of every marker that occurs as a
    substring of the BIN beyging field (binparser.py lines 491-497). -/
def fbits (beyging : String) : Nat :=
  fbitPairs.foldl (fun acc p => if strContains beyging p.1 then acc ||| p.2 else acc) 0

/-- BIN_Token.get_fbits is a memoized fbits; the cache is semantically
    transparent, so the model is fbits itself. -/
def get_fbits (beyging : String) : Nat := fbits beyging

def VBIT_ET : Nat := VBIT "et"
def VBIT_FT : Nat := VBIT "ft"
def VBIT_KK : Nat := VBIT "kk"
def VBIT_KVK : Nat := VBIT "kvk"
def VBIT_HK : Nat := VBIT "hk"
def VBIT_GR : Nat := VBIT "gr"
def VBIT_ABBREV : Nat := VBIT "abbrev"
def VBIT_SUBJ : Nat := VBIT "subj"
def VBIT_SCASES : Nat := VBIT "sþf" ||| VBIT "sþgf" ||| VBIT "sef"
def VBIT_GENDERS : Nat := VBIT "kk" ||| VBIT "kvk" ||| VBIT "hk"
def VBIT_NUMBER : Nat := VBIT "et" ||| VBIT "ft"
def VBIT_CASES : Nat := VBIT "nf" ||| VBIT "þf" ||| VBIT "þgf" ||| VBIT "ef"

/-- BIN_Token.FBIT_MASK: bits masked off a VBIT set to obtain an FBIT set. -/
def FBIT_MASK : Nat := VBIT_ABBREV ||| VBIT_SUBJ ||| VBIT_SCASES

/-- Python a & ~b on arbitrary-precision non-negative ints: keep exactly the
    bits of a that are absent from b. -/
def landNot (a b : Nat) : Nat := a &&& (a ^^^ b)

/-! ### Terminals (binparser.py, VariantHandler, lines 1403-1603)

Non-literal grammar terminals (BIN_Terminal): the name is split on
underscores into the category (first part) and the variant list. -/

structure BTerminal where
  name : String
  first : String
  vparts : List String
deriving DecidableEq, Repr

/-- Split a character list on underscores (Python str.split sem: the empty
    string yields one empty part, trailing separators yield empty parts). -/
def splitParts : List Char → List (List Char)
  | [] => [[]]
  | c :: rest =>
    let r := splitParts rest
    if c = '_' then [] :: r
    else
      match r with
      | [] => [[c]]
      | p :: ps => (c :: p) :: ps

/-- Build a terminal from its grammar name, as VariantHandler.__init__ does
    for non-literal terminals (name.split under underscores). -/
def mkTerminal (name : String) : BTerminal :=
  let ps := (splitParts name.data).map String.mk
  ⟨name, ps.headD "", ps.tail⟩

/-- VariantHandler._vbits: union of the bits of the declared variants. -/
def BTerminal.vbits (t : BTerminal) : Nat :=
  t.vparts.foldl (fun acc v => acc ||| VBIT v) 0

/-- VariantHandler._fbits = _vbits with the grammar-only marker bits removed. -/
def BTerminal.fbits (t : BTerminal) : Nat :=
  landNot t.vbits FBIT_MASK

def BTerminal.numVariants (t : BTerminal) : Nat := t.vparts.length

def BTerminal.variantAt (t : BTerminal) (i : Nat) : String :=
  t.vparts.getD i ""

def BTerminal.hasVariant (t : BTerminal) (v : String) : Bool :=
  t.vparts.contains v

def BTerminal.hasVbits (t : BTerminal) (m : Nat) : Bool :=
  (t.vbits &&& m) == m

def BTerminal.hasAnyVbits (t : BTerminal) (m : Nat) : Bool :=
  (t.vbits &&& m) != 0

/-- VariantHandler.fbits_match: self._fbits & ~fbits == 0. -/
def BTerminal.fbitsMatch (t : BTerminal) (f : Nat) : Bool :=
  landNot t.fbits f == 0

/-- VariantHandler.fbits_match_mask: self._fbits & mask & ~fbits == 0. -/
def BTerminal.fbitsMatchMask (t : BTerminal) (mask f : Nat) : Bool :=
  landNot (t.fbits &&& mask) f == 0

def BTerminal.isSingular (t : BTerminal) : Bool := (t.vbits &&& VBIT_ET) != 0
def BTerminal.isPlural (t : BTerminal) : Bool := (t.vbits &&& VBIT_FT) != 0
def BTerminal.isAbbrev (t : BTerminal) : Bool := (t.vbits &&& VBIT_ABBREV) != 0
def BTerminal.isNh (t : BTerminal) : Bool := (t.vbits &&& VBIT "nh") != 0
def BTerminal.isMm (t : BTerminal) : Bool := (t.vbits &&& VBIT "mm") != 0
def BTerminal.isVh (t : BTerminal) : Bool := (t.vbits &&& VBIT "vh") != 0
def BTerminal.isSubj (t : BTerminal) : Bool := (t.vbits &&& VBIT_SUBJ) != 0
def BTerminal.isSagnb (t : BTerminal) : Bool := (t.vbits &&& VBIT "sagnb") != 0
def BTerminal.isLh (t : BTerminal) : Bool := (t.vbits &&& VBIT "lhþt") != 0
def BTerminal.isLhNt (t : BTerminal) : Bool :=
  (t.vbits &&& (VBIT "lh" ||| VBIT "nt")) == (VBIT "lh" ||| VBIT "nt")

/-- VariantHandler.gender. -/
def BTerminal.gender (t : BTerminal) : Option String :=
  if (t.vbits &&& VBIT_KK) != 0 then some "kk"
  else if (t.vbits &&& VBIT_KVK) != 0 then some "kvk"
  else if (t.vbits &&& VBIT_HK) != 0 then some "hk"
  else none

/-- Argument count encoded in a leading "0"/"1"/"2" variant. -/
def argCount (v : String) : Nat :=
  if v = "0" then 0 else if v = "1" then 1 else 2

/-- VariantHandler._cases: cases following a leading 0/1/2 argument count. -/
def BTerminal.verbCases (t : BTerminal) : String :=
  if t.numVariants ≥ 1 ∧ (t.variantAt 0 = "0" ∨ t.variantAt 0 = "1" ∨ t.variantAt 0 = "2") then
    let ncases := argCount (t.variantAt 0)
    String.join ((List.range ncases).map fun i => "_" ++ t.variantAt (1 + i))
  else ""

/-- Whether the terminal name denotes a literal terminal (quoted first part).
    All terminals modelled here are plain BIN_Terminals, but the scoring code
    inspects this flag, so it is computed faithfully from the name. -/
def BTerminal.isLiteral (t : BTerminal) : Bool :=
  match t.name.data with
  | [] => false
  | c :: _ => c = '\"' ∨ c = '\''

/-! ### Word meanings (lexicon readings) -/

/-- A BIN meaning tuple (bindb.py BIN_Meaning): stem, id, category,
    subcategory, surface form, inflection tag. -/
structure BMeaning where
  stofn : String
  utg : Nat
  ordfl : String
  fl : String
  ordmynd : String
  beyging : String
deriving DecidableEq, Repr

/-- BIN_Token.KIND with default: genders map to noun category, everything
    else is unchanged (all other explicit entries are identity). -/
def KIND (ordfl : String) : String :=
  if ordfl = "kk" ∨ ordfl = "kvk" ∨ ordfl = "hk" then "no" else ordfl

/-- BIN_Token.GENDERS_MAP with default empty string. -/
def GENDERS_MAP (ordfl : String) : String :=
  if ordfl = "kk" then "KK"
  else if ordfl = "kvk" then "KVK"
  else if ordfl = "hk" then "HK"
  else ""

/-- VariantHandler.matches_first for plain terminals: compare the terminal
    category with the KIND-mapped word category. -/
def matchesFirst (t : BTerminal) (ordfl : String) : Bool :=
  t.first == KIND ordfl

/-- BIN_Token.matches_WORD local matcher_default (binparser.py 1239-1270). -/
def matcherDefault (t : BTerminal) (m : BMeaning) : Bool :=
  if matchesFirst t m.ordfl then
    if m.beyging == "-" then
      if m.ordfl == "lo" then true
      else if m.ordfl == "kk" || m.ordfl == "kvk" || m.ordfl == "hk" then
        t.fbitsMatchMask (VBIT_GENDERS ||| VBIT_NUMBER) (VBIT m.ordfl ||| VBIT "et")
      else
        t.fbitsMatch 0
    else
      t.fbitsMatch (get_fbits (m.beyging ++ GENDERS_MAP m.ordfl))
  else false

/-- Dispatch of matcher_default over the token's meaning list: the match
    returns the first meaning accepted by the matcher, or fails
    (binparser.py lines 1287-1294, for categories without a dedicated
    matcher_xxx function, e.g. fn, gr, st, uh, nhm). -/
def matchDefaultCategory (t : BTerminal) (t2 : List BMeaning) : Option BMeaning :=
  t2.find? (fun m => matcherDefault t m)

/-- BIN_Token.matches_WORD for an unknown word (empty meaning list),
    binparser.py lines 1296-1313. -/
def matchesWORDUnknown (t : BTerminal) (isUpper : Bool) (t1lower : String) : Bool :=
  if isUpper && (t.first == "sérnafn") && (t.numVariants == 0)
      && !(t1lower.data.contains ' ') then
    true
  else
    (t.first == "no") && t.hasVbits (VBIT_ET ||| VBIT_HK) && !(t.hasVbits VBIT_GR)

/-! ### BIN_Token.mm_verb_stem (binparser.py lines 533-542)

Strings are modelled as character lists here so that the suffix structure is
directly visible. -/

/-- Middle-voice verb stem: append "st" unless the stem already ends in "st". -/
def mm_verb_stem (verb : List Char) : List Char :=
  if List.isSuffixOf ['s', 't'] verb then verb else verb ++ ['s', 't']

/-! ### BIN_Token.is_correct_singular_or_plural (binparser.py lines 803-825)

The claim concerns number tokens with an integer value, for which the source
takes the whole-number branch: i = abs(n) %% 100, singular iff i is not 11
and i %% 10 == 1. -/

/-- BIN_Token._SINGULAR_SPECIAL_CASES (binparser.py line 333). -/
def SINGULAR_SPECIAL_CASES : List Int := [365]

/-- Integer-token case of BIN_Token.is_correct_singular_or_plural:
    i = abs(n) %% 100, singular iff i is not 11 and i %% 10 == 1. -/
def isCorrectSingularOrPlural (n : Int) (t : BTerminal) : Bool :=
  if t.isSingular && !((n.natAbs % 100 != 11) && (n.natAbs % 100 % 10 == 1)) then
    -- Terminal is singular but number is plural
    SINGULAR_SPECIAL_CASES.contains n
  else if t.isPlural && ((n.natAbs % 100 != 11) && (n.natAbs % 100 % 10 == 1)) then
    -- Terminal is plural but number is singular
    false
  else true

/-- Grammatical singularity of an integer, as worded in the specification:
    abs(n) %% 100 ends in 1 and is not 11. -/
def grammaticallySingular (n : Int) : Prop :=
  n.natAbs % 100 ≠ 11 ∧ n.natAbs % 100 % 10 = 1

instance (n : Int) : Decidable (grammaticallySingular n) := by
  unfold grammaticallySingular
  infer_instance

/-! ### Parse-forest reducer (reducer.py)

The SPPF forest type and the bottom-up visit order come from the forest
contract (spec sections 4.3 and 6); fastparser.py, which implements the
navigator skeleton, is not part of this repository snapshot.  A node is an
epsilon node, a token/terminal leaf, or a completed nonterminal carrying one
child family per production.  Everything performed at each step of the walk
(ReductionInfo, scoring, pruning, the two scope stacks) is translated from
reducer.py.  The bonus cache (_bonus_cache) memoizes the pure function
verb_prep_bonus, so the model calls the function directly; verb_prep_bonus
itself depends on the verb/preposition configuration tables, so it is a
parameter of the model. -/

structure NTInfo where
  name : String
  tags : List String
  isNounPhrase : Bool
  start : Nat
  stop : Nat
deriving DecidableEq, Repr

mutual
inductive PNode where
  | eps : PNode
  | tok (pos : Nat) (terminal : BTerminal) (lower : String) : PNode
  | nt (info : NTInfo) (fams : PFams) : PNode
deriving DecidableEq, Repr
inductive PFams where
  | nil : PFams
  | cons (children : PChildren) (rest : PFams) : PFams
deriving DecidableEq, Repr
inductive PChildren where
  | nil : PChildren
  | cons (child : PNode) (rest : PChildren) : PChildren
deriving DecidableEq, Repr
end

def famsOfList : List PChildren → PFams
  | [] => .nil
  | c :: cs => .cons c (famsOfList cs)

/-- The result dictionary flowing up the walk: the accumulated score "sc",
    and the optional "so" (contained verbs) and "sl" (picked-up verb) lists. -/
structure RScore where
  sc : Int
  so : Option (List (BTerminal × String))
  sl : Option (List (BTerminal × String))
deriving DecidableEq, Repr

/-- The two reducer scope stacks (head of the list is the top of the stack).
    Both start as the single base frame [none]. -/
structure RState where
  prepStack : List (Option (List (BTerminal × String)))
  verbStack : List (Option (List (BTerminal × String)))
deriving DecidableEq, Repr

def RState.pushPrep (s : RState) (v : Option (List (BTerminal × String))) : RState :=
  { s with prepStack := v :: s.prepStack }

def RState.popPrep (s : RState) : RState :=
  { s with prepStack := s.prepStack.tail }

def RState.getPrep (s : RState) : Option (List (BTerminal × String)) :=
  s.prepStack.headD none

def RState.pushVerb (s : RState) (v : Option (List (BTerminal × String))) : RState :=
  { s with verbStack := v :: s.verbStack }

def RState.popVerb (s : RState) : RState :=
  { s with verbStack := s.verbStack.tail }

def RState.getVerb (s : RState) : Option (List (BTerminal × String)) :=
  s.verbStack.headD none

/-- set_current_verb: overwrite the top frame of the verb stack. -/
def RState.setVerb (s : RState) (v : Option (List (BTerminal × String))) : RState :=
  { s with verbStack := v :: s.verbStack.tail }

/-- Configuration/environment of a reduction: the per-token terminal scores
    (third argument of ParseForestReducer), the $score() adjustments per
    nonterminal, and verb_prep_bonus as a function of (prep terminal,
    prep token text, verb terminal, verb token text). -/
structure RConfig where
  scores : Nat → BTerminal → Int
  scoreAdj : String → Int
  vpBonus : BTerminal → String → BTerminal → String → Int

/-- The final_bonus loop of _visit_token: maximum of the bonuses over the
    enclosing-verb list, none when the list is empty. -/
def maxPrepBonus (cfg : RConfig) (t : BTerminal) (lower : String) :
    List (BTerminal × String) → Option Int
  | [] => none
  | (vt, vtok) :: rest =>
    let b := cfg.vpBonus t lower vt vtok
    match maxPrepBonus cfg t lower rest with
    | none => some b
    | some fb => some (max fb b)

/-- ParseForestReducer._visit_token (reducer.py 352-387). -/
def visitToken (cfg : RConfig) (s : RState) (pos : Nat) (t : BTerminal)
    (lower : String) : RScore :=
  let base := cfg.scores pos t
  if t.first == "fs" then
    match s.getPrep with
    | none => ⟨base, none, none⟩
    | some lst =>
      match maxPrepBonus cfg t lower lst with
      | none => ⟨base, none, none⟩
      | some b => ⟨base + b, none, none⟩
  else if t.first == "so" then
    ⟨base, some [(t, lower)], none⟩
  else
    ⟨base, none, none⟩

/-- add_child_score (reducer.py 197-210): merge a child result into the
    family accumulator, extending the so/sl lists and setting the current
    verb when the child carries an "sl" entry. -/
def mergeScore (acc child : RScore) (s : RState) : RScore × RState :=
  let acc1 : RScore := { acc with sc := acc.sc + child.sc }
  let acc2 : RScore :=
    match child.so with
    | none => acc1
    | some l => { acc1 with so := some (acc1.so.getD [] ++ l) }
  match child.sl with
  | none => (acc2, s)
  | some l => ({ acc2 with sl := some (acc2.sl.getD [] ++ l) }, s.setVerb (some l))

/-- Ordering used by ReductionInfo.process: sorted(csc.items(),
    key=(score, -index), reverse=True)[0]; cand beats best when its score is
    strictly larger, or equal with a smaller family index. -/
def betterKey (best cand : Nat × RScore) : Bool :=
  decide (best.2.sc < cand.2.sc) ||
    (decide (best.2.sc = cand.2.sc) && decide (cand.1 < best.1))

/-- First element of the reverse-sorted family list (none iff no family has
    been scored). -/
def pySelect : List (Nat × RScore) → Option (Nat × RScore)
  | [] => none
  | x :: xs => some (xs.foldl (fun best cand => if betterKey best cand then cand else best) x)

/-- Score adjustments applied by ReductionInfo.process once a family has been
    selected (reducer.py 240-272). -/
def adjustScore (cfg : RConfig) (info : NTInfo) (s3 : RState) (sc : RScore) : RScore :=
  let sc1 : RScore := { sc with sc := sc.sc + cfg.scoreAdj info.name }
  let sc2 : RScore :=
    if info.tags.contains "apply_length_bonus" then
      { sc1 with sc := sc1.sc + ((info.stop - info.start - 1 : Nat) : Int) * 10 }
    else sc1
  let sc3 : RScore :=
    if info.tags.contains "apply_prep_bonus" && s3.getPrep.isSome then
      { sc2 with sc := sc2.sc + 7 }
    else sc2
  let sc4 : RScore :=
    if info.tags.contains "pick_up_verb" then
      match sc3.so with
      | some v => { sc3 with sl := some v }
      | none => sc3
    else sc3
  if info.tags.contains "begin_prep_scope" || info.tags.contains "purge_verb" then
    { sc4 with so := none, sl := none }
  else sc4

/-- ReductionInfo.process after the family scores have been gathered
    (reducer.py 216-273): keep all families when zero or one of them was
    scored (shortcut, no reduce_to), otherwise reduce the node to the family
    selected by pySelect; the selected score is then adjusted. -/
def processResult (cfg : RConfig) (info : NTInfo) (famsOut : List PChildren)
    (csc : List (Nat × RScore)) (s3 : RState) : PNode × RScore :=
  match csc with
  | [] => (.nt info (famsOfList famsOut), ⟨0, none, none⟩)
  | [e] =>
    (.nt info (famsOfList famsOut), adjustScore cfg info s3 e.2)
  | e0 :: e1 :: rest =>
    match pySelect (e0 :: e1 :: rest) with
    | none => (.nt info (famsOfList famsOut), ⟨0, none, none⟩)
    | some (ix, sc) =>
      (.nt info (famsOfList [famsOut.getD ix .nil]), adjustScore cfg info s3 sc)

mutual

/-- Bottom-up reduction of one node, threading the two scope stacks; returns
    the pruned node, its result dictionary, and the state after all pushes
    performed on entry have been popped again. -/
def reduceNode (cfg : RConfig) (s : RState) : PNode → PNode × RScore × RState
  | .eps => (.eps, ⟨0, none, none⟩, s)
  | .tok pos t lower => (.tok pos t lower, visitToken cfg s pos t lower, s)
  | .nt info fams =>
    if info.start < info.stop then
      -- ReductionInfo.__init__ (reducer.py 173-195)
      let verb0 := s.getVerb
      let enable := info.tags.contains "enable_prep_bonus"
      let beginScope := info.tags.contains "begin_prep_scope" || info.isNounPhrase
      let pushedPrep := enable || beginScope
      let startVerb := if enable then verb0 else if beginScope then none else verb0
      let s1 :=
        if enable then s.pushPrep verb0
        else if beginScope then s.pushPrep none
        else s
      let s2 := s1.pushVerb startVerb
      let r := reduceFams cfg s2 startVerb 0 fams
      let pr := processResult cfg info r.1 r.2.1 r.2.2
      -- the finally clause: pop everything pushed in __init__
      (pr.1, pr.2, (if pushedPrep then r.2.2.popPrep else r.2.2).popVerb)
    else
      -- not a span: _visit_nonterminal returns None, children are skipped and
      -- _process_results yields dict(sc=0) with no stack activity
      (.nt info fams, ⟨0, none, none⟩, s)

/-- Visit the families of a node in index order; add_child_production resets
    the current verb frame before each family. -/
def reduceFams (cfg : RConfig) (s : RState)
    (startVerb : Option (List (BTerminal × String))) (ix : Nat) :
    PFams → List PChildren × List (Nat × RScore) × RState
  | .nil => ([], [], s)
  | .cons ch rest =>
    let s1 := s.setVerb startVerb
    let r := reduceChildren cfg s1 ⟨0, none, none⟩ ch
    let r2 := reduceFams cfg r.2.2.2 startVerb (ix + 1) rest
    (r.1 :: r2.1, (if r.2.2.1 then [(ix, r.2.1)] else []) ++ r2.2.1, r2.2.2)

/-- Visit the children of one family left to right, accumulating the family
    score; the Bool records whether at least one child contributed (only then
    does the family index appear in the score dictionary). -/
def reduceChildren (cfg : RConfig) (s : RState) (acc : RScore) :
    PChildren → PChildren × RScore × Bool × RState
  | .nil => (.nil, acc, false, s)
  | .cons c rest =>
    let r := reduceNode cfg s c
    let m := mergeScore acc r.2.1 r.2.2
    let r2 := reduceChildren cfg m.2 m.1 rest
    (.cons r.1 r2.1, r2.2.1, true, r2.2.2.2)

end

/-- The base state: both stacks hold their single base frame. -/
def baseState : RState := ⟨[none], [none]⟩

/-- ParseForestReducer.go restricted to the reduction walk (the preliminary
    PrepositionUnpacker pass duplicates subtrees but touches neither stack). -/
def reduceGo (cfg : RConfig) (root : PNode) : PNode × RScore × RState :=
  reduceNode cfg baseState root

/-- The runtime stack sanity check _check_stacks (reducer.py 416-421). -/
def checkStacks (s : RState) : Prop :=
  s.prepStack = [none] ∧ s.verbStack = [none]

/-! ### Compound-word analyzer (dawgdictionary.py 159-236 and 286-300)

For the decomposition algorithm the DAWG is modelled extensionally by the
list of words it contains: navigation calls accept(matched, final) for every
prefix of the input that is a path in the graph, in increasing length order,
with final set exactly when the prefix is a graph word; CompoundNavigator
reacts only to final prefixes, so the graph enters the model only through
word membership.  Words are character lists so that the slicing of the
source is direct. -/

/-- CompoundNavigator._JOINERS. -/
def JOINERS : List (List Char) := [[], ['s']]

/-- The joiner loop of accept() (dawgdictionary.py 204-223), parameterized
    by the recursive navigation of the remainder: try each joiner in order;
    on the first one that fits the text and whose remainder yields a
    non-empty decomposition list, prepend matched ++ joiner to each tail and
    stop. -/
def tryJoinersLoop (recur : List Char → List (List (List Char)))
    (w : List Char) (i : Nat) (p : List Char) :
    List (List Char) → List (List (List Char))
  | [] => []
  | j :: js =>
    if j = [] ∨ (i + j.length < w.length ∧ (w.drop i).take j.length = j) then
      let r := recur (w.drop (i + j.length))
      if r.isEmpty then tryJoinersLoop recur w i p js
      else r.map fun tail => (p ++ j) :: tail
    else tryJoinersLoop recur w i p js

/-- The decomposition list produced by running CompoundNavigator over word w
    (dawgdictionary.py accept(), lines 195-223): a complete match replaces
    everything accumulated so far by the single-part split; every final
    proper prefix (visited in increasing length order) contributes the
    splits obtained through the first joiner whose remainder decomposes.
    The fuel argument only bounds the recursion depth; each recursive call
    shortens the word by at least one character, so fuel = length + 1 never
    runs out. -/
def compoundPartsF (S : List (List Char)) : Nat → List Char → List (List (List Char))
  | 0, _ => []
  | fuel + 1, w =>
    if S.contains w then [[w]]
    else
      (List.range' 1 (w.length - 1)).flatMap fun i =>
        if S.contains (w.take i) then
          tryJoinersLoop (compoundPartsF S fuel) w i (w.take i) JOINERS
        else []

/-- CompoundNavigator.result() for the full word. -/
def compoundParts (S : List (List Char)) (w : List Char) : List (List (List Char)) :=
  compoundPartsF S (w.length + 1) w

/-- The sort key of slice_compound_word (dawgdictionary.py 296): maximise
    (length of last part, fewer parts); cand beats best when its last part is
    longer, or equally long with strictly fewer parts. -/
def betterSplit (best cand : List (List Char)) : Bool :=
  decide ((best.getLastD []).length < (cand.getLastD []).length) ||
    (decide ((best.getLastD []).length = (cand.getLastD []).length)
      && decide (cand.length < best.length))

/-- PackedDawgDictionary.slice_compound_word (dawgdictionary.py 286-300):
    first element of the stably reverse-sorted decomposition list, none when
    no decomposition exists. -/
def sliceCompoundWord (S : List (List Char)) (w : List Char) :
    Option (List (List Char)) :=
  match compoundParts S w with
  | [] => none
  | x :: xs =>
    some (xs.foldl (fun best cand => if betterSplit best cand then cand else best) x)

/-- Validity of a decomposition, as the specification words it: each part is
    a graph word optionally followed by a joiner from the fixed set, the last
    part is a graph word, and the parts concatenate to the input word (the
    joiner is attached to the preceding part, as in the code's output). -/
def validSplit (S : List (List Char)) : List (List Char) → List Char → Bool
  | [], _ => false
  | [p], w => (p == w) && S.contains p
  | p :: q :: rest, w =>
    (S.any fun u => JOINERS.any fun j => p == u ++ j)
    && p.isPrefixOf w && validSplit S (q :: rest) (w.drop p.length)

/-! ### Lexicon access layer (bindb.py, BIN_Db._lookup, lines 288-423)

The underlying word-form lookup, the compound slicer and the adjective
ending template are parameters of the model: the lookup queries the
compressed lexicon, AdjectiveTemplate.ENDINGS is an externally populated
configuration table, and Wordbase.slice_compound_word is called by
_lookup but its definition is not part of this repository snapshot, so it
is modelled from the specification (section 2: the compound analyzer
decomposes an unknown surface form into known sub-words, returning the part
list or nothing).  Python str.lower and friends are modelled with Lean's
character case mappings, which agree with Python on the ASCII inputs used
in the theorems. -/

def BIN_Db_NOUNS : List String := ["kk", "kvk", "hk"]

/-- BIN_Db._OPEN_CATS. -/
def OPEN_CATS : List String := ["so", "kk", "hk", "kvk", "lo"]

/-- BIN_Db.open_cats: filter meanings down to open word categories. -/
def open_cats (mlist : List BMeaning) : List BMeaning :=
  mlist.filter fun mm => OPEN_CATS.contains mm.ordfl

/-- BIN_Db.prefix_meanings: prepend a compound prefix to stem and surface
    form, when the prefix is non-empty. -/
def prefix_meanings (mlist : List BMeaning) (pfx : String) : List BMeaning :=
  if pfx ≠ "" then
    mlist.map fun r =>
      { r with stofn := pfx ++ "-" ++ r.stofn, ordmynd := pfx ++ "-" ++ r.ordmynd }
  else mlist

/-- Python "-".join. -/
def joinDash : List String → String
  | [] => ""
  | [x] => x
  | x :: y :: rest => x ++ "-" ++ joinDash (y :: rest)

def pyLower (s : String) : String := String.mk (s.data.map Char.toLower)

/-- Python str.islower: no uppercase character and at least one lowercase. -/
def pyIslower (s : String) : Bool :=
  s.data.all (fun c => ¬ c.isUpper) && s.data.any (fun c => c.isLower)

/-- Python str.capitalize. -/
def pyCapitalize (s : String) : String :=
  match s.data with
  | [] => ""
  | c :: cs => String.mk (c.toUpper :: cs.map Char.toLower)

def pyUpper (s : String) : String := String.mk (s.data.map Char.toUpper)

def strEndsWith (s suffix : String) : Bool := List.isSuffixOf suffix.data s.data

def strStartsWith (s p : String) : Bool := List.isPrefixOf p.data s.data

def strDropRight (s : String) (n : Nat) : String :=
  String.mk (s.data.take (s.data.length - n))

def strDropLeft1 (s : String) : String := String.mk s.data.tail

/-- The external dependencies of BIN_Db._lookup. -/
structure LookupEnv where
  lookup : String → List BMeaning
  sliceCW : String → Option (List String)
  adjEndings : List (String × String)

/-- Adjective-heuristic phase of _lookup (bindb.py 359-373): words
    containing "leg" may be adjectives built from the "legur" template, and
    words ending in "lega" may be adverbs. -/
def adjectiveMeanings (env : LookupEnv) (lw : String) : List BMeaning :=
  if strContains lw "leg" then
    (env.adjEndings.filterMap fun ae =>
      if strEndsWith lw ae.1 && decide (lw.length > ae.1.length) then
        some ⟨strDropRight lw ae.1.length ++ "legur", 0, "lo", "alm", lw, ae.2⟩
      else none)
    ++ (if strEndsWith lw "lega" && decide (lw.length > 4) then
          [⟨lw, 0, "ao", "ob", lw, "-"⟩] else [])
  else []

/-- The compound slicing with lower-case retry (bindb.py 377-380). -/
def sliceWithRetry (env : LookupEnv) (w1 lw : String) : Option (List String) :=
  let cw0 := env.sliceCW w1
  if (cw0.getD []).isEmpty && lw ≠ w1 then env.sliceCW lw else cw0

/-- Compound fallback phase of _lookup (bindb.py 375-396): slice the word,
    look up the last part, restrict to nouns for capitalized mid-sentence
    words, restrict to open categories, and prepend the joined prefix. -/
def compoundMeanings (env : LookupEnv) (w1 lw : String) (at1 : Bool) : List BMeaning :=
  match sliceWithRetry env w1 lw with
  | none => []
  | some c =>
    if c.isEmpty then []
    else
      let pfx := joinDash c.dropLast
      let mlast := env.lookup (c.getLastD "")
      let mfil :=
        if lw ≠ w1 ∧ at1 = false then
          mlast.filter fun mm => BIN_Db_NOUNS.contains mm.ordfl
        else mlast
      prefix_meanings (open_cats mfil) pfx

/-- The ó-prefix adjective phase of _lookup (bindb.py 398-416). -/
def oPrefixMeanings (env : LookupEnv) (lw : String) : List BMeaning :=
  if strStartsWith lw "ó" then
    let suffix := strDropLeft1 lw
    if suffix ≠ "" then
      let om := env.lookup suffix
      if ¬ om.isEmpty then
        (om.filter fun r => r.ordfl == "lo").map fun r =>
          ⟨"ó" ++ r.stofn, r.utg, r.ordfl, r.fl, "ó" ++ r.ordmynd, r.beyging⟩
      else []
    else []
  else []

/-- BIN_Db._lookup (bindb.py 294-423). -/
def pyLookupWord (env : LookupEnv) (w0 : String)
    (at_sentence_start auto_uppercase : Bool) : String × List BMeaning :=
  let m0 := env.lookup w0
  -- auto-uppercase handling, lines 304-330
  let awm :=
    if auto_uppercase && pyIslower w0 then
      if w0.length == 1 && m0.isEmpty then
        (pyUpper w0 ++ ".", m0, at_sentence_start)
      else
        let wUp := pyCapitalize w0
        let mUp := env.lookup wUp
        if ¬ mUp.isEmpty then
          (wUp, (if ¬ m0.isEmpty then mUp ++ m0 else mUp), false)
        else (w0, m0, at_sentence_start)
    else (w0, m0, at_sentence_start)
  let w1 := awm.1
  let m1 := awm.2.1
  let at1 := awm.2.2
  -- lower-case retry, lines 332-354 (lower_w is only rebound inside the
  -- branch; outside it keeps the original w0)
  let lwm :=
    if at1 || m1.isEmpty then
      let lw := pyLower w1
      if lw ≠ w1 then
        (lw, if m1.isEmpty then env.lookup lw else env.lookup lw ++ m1)
      else (lw, m1)
    else (w0, m1)
  let lower_w1 := lwm.1
  let m2 := lwm.2
  if ¬ m2.isEmpty then (w1, m2)
  else
    let m3 := adjectiveMeanings env lower_w1
    let m4 := if m3.isEmpty then compoundMeanings env w1 lower_w1 at1 else m3
    let m5 := if m4.isEmpty then oPrefixMeanings env lower_w1 else m4
    let w2 := if auto_uppercase && m5.isEmpty && pyIslower w1 then pyCapitalize w1 else w1
    (w2, m5)

/-! ### Packed DAWG (dawgdictionary.py, PackedDawgDictionary 239-326 and
PackedNavigation 329-446)

The byte buffer is a list of byte values.  Out-of-range buffer indexing,
missing encoding-dictionary entries and invalid UTF-8 vocabularies are
Python exceptions, modelled by Option (none = the operation raised).
Navigation is defunctionalized (one task per loop of the source) and driven
by fuel, which only bounds the recursion depth.  Both navigator classes
return False from pop_edge, so at most one edge is entered per node and the
accept callback is the only difference between them: it is a parameter. -/

/-- The 12-byte signature b"ReynirDawg!\n" (dawgdictionary.py 260). -/
def dawgSignature : List Nat :=
  [82, 101, 121, 110, 105, 114, 68, 97, 119, 103, 33, 10]

/-- Strict UTF-8 decoding of a byte list (continuation, overlong, surrogate
    and range checks), as bytes.decode("utf-8") performs. -/
def utf8Decode : List Nat → Option (List Char)
  | [] => some []
  | b :: rest =>
    if b < 0x80 then
      (utf8Decode rest).map fun cs => Char.ofNat b :: cs
    else if 0xC2 ≤ b ∧ b ≤ 0xDF then
      match rest with
      | b1 :: rest1 =>
        if 0x80 ≤ b1 ∧ b1 ≤ 0xBF then
          (utf8Decode rest1).map fun cs =>
            Char.ofNat ((b - 0xC0) * 64 + (b1 - 0x80)) :: cs
        else none
      | [] => none
    else if 0xE0 ≤ b ∧ b ≤ 0xEF then
      match rest with
      | b1 :: b2 :: rest2 =>
        if (0x80 ≤ b1 ∧ b1 ≤ 0xBF) ∧ (0x80 ≤ b2 ∧ b2 ≤ 0xBF) then
          let cp := (b - 0xE0) * 4096 + (b1 - 0x80) * 64 + (b2 - 0x80)
          if cp < 0x800 ∨ (0xD800 ≤ cp ∧ cp ≤ 0xDFFF) then none
          else (utf8Decode rest2).map fun cs => Char.ofNat cp :: cs
        else none
      | _ => none
    else if 0xF0 ≤ b ∧ b ≤ 0xF4 then
      match rest with
      | b1 :: b2 :: b3 :: rest3 =>
        if (0x80 ≤ b1 ∧ b1 ≤ 0xBF) ∧ (0x80 ≤ b2 ∧ b2 ≤ 0xBF) ∧ (0x80 ≤ b3 ∧ b3 ≤ 0xBF) then
          let cp := (b - 0xF0) * 262144 + (b1 - 0x80) * 4096 + (b2 - 0x80) * 64 + (b3 - 0x80)
          if cp < 0x10000 ∨ 0x10FFFF < cp then none
          else (utf8Decode rest3).map fun cs => Char.ofNat cp :: cs
        else none
      | _ => none
    else none

/-- PackedDawgDictionary instance state: the byte buffer (None before load),
    the decoded vocabulary and the root offset. -/
structure PackedDawg where
  b : Option (List Nat)
  vocabulary : List Char
  rootOffset : Nat
deriving Repr

/-- A freshly constructed dictionary (PackedDawgDictionary.__init__). -/
def initDawg : PackedDawg := ⟨none, [], 0⟩

/-- Little-endian 32-bit read (struct.Struct("<L")); none when the buffer is
    too short, as unpack_from raises then. -/
def le32 (bs : List Nat) (off : Nat) : Option Nat := do
  let a ← bs.get? off
  let b1 ← bs.get? (off + 1)
  let c ← bs.get? (off + 2)
  let d ← bs.get? (off + 3)
  some (a + b1 * 256 + c * 65536 + d * 16777216)

/-- PackedDawgDictionary.load (dawgdictionary.py 251-274) as a state
    transformer returning the new state and whether the load completed:
    the byte buffer is assigned before the signature assertion, so a failed
    load leaves the buffer set while vocabulary and root offset keep their
    initial values. -/
def loadDawg (d : PackedDawg) (bs : List Nat) : PackedDawg × Bool :=
  if d.b.isSome then (d, true)
  else
    let d1 : PackedDawg := { d with b := some bs }
    if bs.take 12 = dawgSignature then
      match le32 bs 12 with
      | none => (d1, false)
      | some lenVoc =>
        match utf8Decode ((bs.drop 16).take lenVoc) with
        | none => (d1, false)
        | some voc =>
          (⟨some bs, voc, 16 + lenVoc⟩, true)
    else (d1, false)

/-- Lookup in the _encoding dict built by load: plain indices map to their
    vocabulary character, and the update adds, for every index i, the key
    i OR 0x80 mapping to the character plus a finality bar.  With ascending
    update order the last writer wins, so a key with the high bit set
    prefers the vocabulary entry at the full key value when the vocabulary
    reaches that far, else the entry at the masked value; a key bound by
    neither comprehension is a KeyError. -/
def encLookup (voc : List Char) (k : Nat) : Option (List Char) :=
  if k &&& 0x80 = 0 then (voc.get? k).map fun c => [c]
  else
    match voc.get? k with
    | some c => some [c, '|']
    | none => (voc.get? (k &&& 0x7f)).map fun c => [c, '|']

/-- Decode the label bytes of one edge into characters with inline finality
    markers through the encoding dict. -/
def decodePrefix (b : List Nat) (voc : List Char) : Nat → Nat → Option (List Char)
  | _, 0 => some []
  | off, n + 1 => do
    let byte ← b.get? off
    match encLookup voc byte with
    | none => none
    | some cs => do
      let restP ← decodePrefix b voc (off + 1) n
      some (cs ++ restP)

/-- Decode one edge at the given offset (_iter_from_node loop body):
    length byte, label bytes, then the next-node offset unless the last
    label byte carries the finality bit (with length 0 the length byte
    itself is inspected, as b[offset-1] then points at it). -/
def decodeEdge (b : List Nat) (voc : List Char) (off : Nat) :
    Option (List Char × Nat × Nat) := do
  let lenByte ← b.get? off
  let len := lenByte &&& 0x7f
  let pref ← decodePrefix b voc (off + 1) len
  let offEnd := off + 1 + len
  let lastByte ← b.get? (offEnd - 1)
  if lastByte &&& 0x80 ≠ 0 then
    some (pref, 0, offEnd)
  else do
    let nn ← le32 b offEnd
    some (pref, nn, offEnd + 4)

def decodeEdgesFrom (b : List Nat) (voc : List Char) : Nat → Nat → Option (List (List Char × Nat))
  | _, 0 => some []
  | off, n + 1 => do
    let e ← decodeEdge b voc off
    let rest ← decodeEdgesFrom b voc e.2.2 n
    some ((e.1, e.2.1) :: rest)

/-- Keys of an association list in first-occurrence order. -/
def firstKeys : List (List Char × Nat) → List (List Char)
  | [] => []
  | e :: rest => e.1 :: (firstKeys rest).filter fun k => k ≠ e.1

/-- Last value bound to a key. -/
def lastValue (es : List (List Char × Nat)) (k : List Char) : Nat :=
  es.foldl (fun acc e => if e.1 = k then e.2 else acc) 0

/-- The dict comprehension of _make_iter_from_node: first-occurrence key
    order, last value per key. -/
def dedupEdges (es : List (List Char × Nat)) : List (List Char × Nat) :=
  (firstKeys es).map fun k => (k, lastValue es k)

/-- All edges going out of the node at the given offset. -/
def nodeEdges (b : List Nat) (voc : List Char) (off : Nat) :
    Option (List (List Char × Nat)) := do
  let nodeByte ← b.get? off
  let es ← decodeEdgesFrom b voc (off + 1) (nodeByte &&& 0x7f)
  some (dedupEdges es)

/-- Defunctionalized navigation state: about to iterate a node's edges,
    iterating the remaining edges of a node, or walking along an edge's
    decoded label. -/
inductive NavTask (σ : Type) where
  | node (off : Nat) (ix : Nat) (s : σ)
  | loop (es : List (List Char × Nat)) (ix : Nat) (s : σ)
  | walk (pref : List Char) (nextnode : Nat) (ix : Nat) (s : σ)

/-- The shared navigation routine (_navigate_from_node/_navigate_from_edge)
    for navigators whose push_edge compares the word character at the
    current index, whose accepts consumes matching characters, and whose
    pop_edge short-circuits after the first entered edge (true of both
    FindNavigator and CompoundNavigator); acceptF is the navigator's accept
    callback, applied to the index after the consumed character and the
    final flag. -/
def navRun {σ : Type} (b : List Nat) (voc : List Char) (word : List Char)
    (acceptF : Nat → Bool → σ → σ) : Nat → NavTask σ → Option (Nat × σ)
  | 0, _ => none
  | fuel + 1, t =>
    match t with
    | .node off ix s => do
      let es ← nodeEdges b voc off
      navRun b voc word acceptF fuel (.loop es ix s)
    | .loop [] ix s => some (ix, s)
    | .loop ((pref, nn) :: rest) ix s =>
      match pref with
      | [] => none
      | p0 :: _ =>
        match word.get? ix with
        | none => none
        | some wc =>
          if p0 = wc then navRun b voc word acceptF fuel (.walk pref nn ix s)
          else navRun b voc word acceptF fuel (.loop rest ix s)
    | .walk [] nn ix s =>
      if nn ≠ 0 ∧ ix < word.length then navRun b voc word acceptF fuel (.node nn ix s)
      else some (ix, s)
    | .walk (pc :: prest) nn ix s =>
      if ix < word.length then
        match word.get? ix with
        | none => none
        | some wc =>
          if pc = wc then
            match prest with
            | '|' :: prest2 =>
              navRun b voc word acceptF fuel
                (.walk prest2 nn (ix + 1) (acceptF (ix + 1) true s))
            | [] =>
              if nn = 0 then
                navRun b voc word acceptF fuel
                  (.walk [] nn (ix + 1) (acceptF (ix + 1) true s))
              else
                match b.get? nn with
                | none => none
                | some nb =>
                  navRun b voc word acceptF fuel
                    (.walk [] nn (ix + 1)
                      (acceptF (ix + 1) (decide ((nb &&& 0x80) ≠ 0)) s))
            | _ :: _ =>
              navRun b voc word acceptF fuel
                (.walk prest nn (ix + 1) (acceptF (ix + 1) false s))
          else some (ix, s)
      else some (ix, s)

/-- PackedDawgDictionary.find through FindNavigator: none models a raised
    exception; an unloaded dictionary navigates nothing and reports no
    match. -/
def findWord (d : PackedDawg) (word : List Char) : Option Bool :=
  match d.b with
  | none => some false
  | some bs =>
    if 0 < word.length then
      (navRun bs d.vocabulary word
        (fun ix fin fnd => fnd || (fin && decide (ix = word.length)))
        ((word.length + 2) * (bs.length + 4)) (.node d.rootOffset 0 false)).map
        fun r => r.2
    else some false

/-- The joiner loop of CompoundNavigator.accept with a fallible recursive
    navigation of the remainder. -/
def tryJoinersLoopO (recur : List Char → Option (List (List (List Char))))
    (w : List Char) (i : Nat) (p : List Char) :
    List (List Char) → Option (List (List (List Char)))
  | [] => some []
  | j :: js =>
    if j = [] ∨ (i + j.length < w.length ∧ (w.drop i).take j.length = j) then
      match recur (w.drop (i + j.length)) with
      | none => none
      | some r =>
        if r.isEmpty then tryJoinersLoopO recur w i p js
        else some (r.map fun tail => (p ++ j) :: tail)
    else tryJoinersLoopO recur w i p js

/-- Byte-level CompoundNavigator run: scan the word along the graph
    collecting the final positions, then apply the joiner logic at every
    proper final prefix in increasing order; a final complete match
    overwrites everything accumulated before. -/
def sliceCompoundByte (bs : List Nat) (voc : List Char) (root : Nat) :
    Nat → List Char → Option (List (List (List Char)))
  | 0, _ => none
  | fuel + 1, w =>
    if w.length = 0 then some []
    else do
      let scan ← navRun bs voc w
        (fun ix fin ps => if fin then ps ++ [ix] else ps)
        ((w.length + 2) * (bs.length + 4)) (.node root 0 ([] : List Nat))
      let fps := scan.2
      let res ← (fps.filter fun i => i < w.length).foldlM
        (fun acc i => do
          let contrib ← tryJoinersLoopO (sliceCompoundByte bs voc root fuel)
            w i (w.take i) JOINERS
          pure (acc ++ contrib))
        ([] : List (List (List Char)))
      if fps.contains w.length then pure [[w]] else pure res

/-- PackedDawgDictionary.slice_compound_word at byte level: none models a
    raised exception, some none the "no decomposition" result. -/
def sliceCompoundWordD (d : PackedDawg) (w : List Char) :
    Option (Option (List (List Char))) :=
  match d.b with
  | none => some none
  | some bs =>
    match sliceCompoundByte bs d.vocabulary d.rootOffset (w.length + 1) w with
    | none => none
    | some [] => some none
    | some (x :: xs) =>
      some (some (xs.foldl (fun best cand => if betterSplit best cand then cand else best) x))

/-! ### Terminal/token scoring (reducer.py, Reducer._calc_terminal_scores,
lines 466-703)

The first pass collects for every token index the set finals[i] of matching
terminals.  Python then builds scores[i] as a dict comprehension over that
set, so the key order of scores[i] is the iteration order of an unordered
set of terminal objects (hashed by id), which is not specified and varies
between runs; the model therefore takes finals as a function returning the
set elements in their iteration order, and the per-index score dict is an
association list in that order.  The preference tables come from
configuration files (Reynir.conf, Verbs.conf), so they are parameters.
The modelled terminals are plain BIN_Terminals, whose colon_cat is None, so
the literal "sem:st" disjunct of the st branch is vacuous and the branch
fires on first part "st" alone. -/

/-- A token as consumed by the scoring loop: lowercase text, word-ness,
    uppercase-ness and the BIN meaning list t2. -/
structure RdToken where
  lower : String
  isWord : Bool
  isUpper : Bool
  t2 : List BMeaning
deriving DecidableEq, Repr

/-- The configuration tables read by _calc_terminal_scores:
    Preferences.get (word → list of (worse, better, factor)),
    NounPreferences.DICT (word → gender → score), VerbObjects.VERBS[0]
    (verbs with zero arguments) and VerbObjects.SCORES ($score pragmas). -/
structure ScoresCfg where
  prefs : String → Option (List (List String × List String × Int))
  nounPrefs : List (String × List (String × Int))
  verbsZero : List String
  verbScores : List (String × Int)

def assocGet {α : Type} (l : List (String × α)) (k : String) : Option α :=
  (l.find? fun e => e.1 == k).map fun e => e.2

/-- str.rsplit("-", maxsplit=1)[-1]: the part after the last dash (the whole
    string when there is no dash). -/
def afterLastDash (s : List Char) : List Char :=
  (s.reverse.takeWhile fun c => c ≠ '-').reverse

/-- scores[i] = \x7bterminal: 0 for terminal in s\x7d in the given set order. -/
def initScores (s : List BTerminal) : List (BTerminal × Int) :=
  s.map fun t => (t, 0)

/-- sc[t] += d: mutate the value, keep the key order. -/
def scAdd (sc : List (BTerminal × Int)) (t : BTerminal) (d : Int) :
    List (BTerminal × Int) :=
  sc.map fun e => if e.1 = t then (e.1, e.2 + d) else e

/-- The nhm adjacency loop (reducer.py 648-652): iterate the keys of the
    previous score dict in order and add 2 to the first terminal whose first
    part is "nhm", then break. -/
def bumpFirstNhm : List (BTerminal × Int) → List (BTerminal × Int)
  | [] => []
  | e :: rest =>
    if e.1.first == "nhm" then (e.1, e.2 + 2) :: rest
    else e :: bumpFirstNhm rest

/-- adj_worse[wt]: minimum over the preference entries of -2*factor, for
    entries whose worse list holds wt's first part while some other terminal
    of the set has its first part in the better list (defaultdict base 0). -/
def prefAdjWorse (prefs : List (List String × List String × Int))
    (s : List BTerminal) (wt : BTerminal) : Int :=
  prefs.foldl
    (fun acc p =>
      if p.1.contains wt.first
          && s.any (fun bt => bt ≠ wt && p.2.1.contains bt.first) then
        min acc (-2 * p.2.2)
      else acc)
    0

/-- adj_better[bt]: maximum over the preference entries of +6*factor for a
    literal terminal and +4*factor otherwise, for entries whose better list
    holds bt's first part while some other terminal of the set has its first
    part in the worse list. -/
def prefAdjBetter (prefs : List (List String × List String × Int))
    (s : List BTerminal) (bt : BTerminal) : Int :=
  prefs.foldl
    (fun acc p =>
      if p.2.1.contains bt.first
          && s.any (fun wt => wt ≠ bt && p.1.contains wt.first) then
        max acc ((if bt.isLiteral then 6 else 4) * p.2.2)
      else acc)
    0

/-- Apply both preference adjustment maps to the score dict (keys never
    touched receive the defaultdict value 0). -/
def prefApply (prefs : List (List String × List String × Int))
    (s : List BTerminal) (sc : List (BTerminal × Int)) :
    List (BTerminal × Int) :=
  s.foldl
    (fun acc t => scAdd (scAdd acc t (prefAdjWorse prefs s t)) t (prefAdjBetter prefs s t))
    sc

/-- The per-terminal heuristics of the "for t in s" loop (reducer.py
    525-703): the terminal's own score increment, and whether the terminal
    triggers the nhm adjacency bump of the previous position's scores. -/
def heurAdj (cfg : ScoresCfg) (wstart i : Nat) (token : RdToken)
    (s prevFinals : List BTerminal) (txt txtLast : String) (composite : Bool)
    (t : BTerminal) : Int × Bool :=
  let lit : Int := if t.isLiteral then 2 else 0
  let tf := t.first
  let main : Int × Bool :=
    if tf == "ao" || tf == "eo" then (-1, false)
    else if tf == "no" then
      let a1 : Int := if t.isSingular then 1 else if t.isAbbrev then -1 else 0
      let a2 : Int :=
        if token.isWord && token.isUpper && !token.t2.isEmpty
            && token.t2.any (fun m =>
              ["ism", "erm", "nafn", "föð", "móð", "örn", "fyr"].contains m.fl) then
          -5
        else 0
      let a3 : Int :=
        match assocGet cfg.nounPrefs txtLast with
        | none => 0
        | some np =>
          match t.gender with
          | none => 0
          | some g => (assocGet np g).getD 0
      (a1 + a2 + a3, false)
    else if tf == "fs" then
      (if t.hasVariant "nf" then -8
       else if txt == "við" && t.hasVariant "þgf" then 1
       else if txt == "sem" && t.hasVariant "þf" then -4
       else if txt == "á" && t.hasVariant "þgf" then 4
       else 2, false)
    else if tf == "lo" then (if composite then -3 else 0, false)
    else if tf == "so" then
      let aArg : Int :=
        if t.numVariants > 0
            && (t.variantAt 0 == "0" || t.variantAt 0 == "1" || t.variantAt 0 == "2") then
          let numcases := argCount (t.variantAt 0)
          let adj : Int :=
            if numcases == 0
                && token.t2.all (fun m =>
                  !(m.ordfl == "so")
                    || (!cfg.verbsZero.contains m.stofn
                        && !cfg.verbsZero.contains m.ordmynd
                        && !strContains m.beyging "MM")) then
              -5
            else 2 * numcases
          let adjmax : Int :=
            match token.t2.find? (fun m =>
                m.ordfl == "so"
                  && (assocGet cfg.verbScores (m.stofn ++ t.verbCases)).isSome) with
            | none => 0
            | some m => (assocGet cfg.verbScores (m.stofn ++ t.verbCases)).getD 0
          adj + adjmax
        else 0
      let aForm : Int :=
        if t.isSagnb then 6
        else if t.isLh then (if t.hasVariant "vb" then -2 else 3)
        else if t.isLhNt then 12
        else if t.isMm then 3
        else if t.isVh then 2
        else 0
      let aSubj : Int :=
        if t.isSubj then (if t.hasVariant "none" then -3 else 1) else 0
      let adjacency :=
        t.isNh && decide (0 < i) && prevFinals.any fun pt => pt.first == "nhm"
      let aNh : Int :=
        (if adjacency then 4 else 0)
          + (if t.isNh
                && s.any (fun pt =>
                  pt.first == "no" && pt.hasVariant "ef" && pt.isPlural) then
              4
            else 0)
      let aUpper : Int := if decide (0 < i) && token.isUpper then -4 else 0
      (aArg + aForm + aSubj + aNh + aUpper, adjacency)
    else if tf == "tala" then (if t.hasVariant "ef" then -4 else 0, false)
    else if tf == "person" then (if t.hasVariant "nf" then 2 else 0, false)
    else if tf == "sérnafn" then
      (if token.t2.isEmpty then 4
       else -10 + (if i == wstart then -6 else 0), false)
    else if tf == "fyrirtæki" then (24, false)
    else if tf == "st" then (if txt == "sem" then -6 else 0, false)
    else if tf == "abfn" then (if t.numVariants > 1 then 6 else 2, false)
    else if tf == "gr" then (2, false)
    else (0, false)
  (lit + main.1, main.2)

/-- Process one token position: build the fresh score dict; if the option
    set has at most one element, stop there (continue); otherwise apply the
    preference adjustments and the heuristics loop, also threading the
    previous position's score dict through the nhm bumps. -/
def calcPosition (cfg : ScoresCfg) (wstart i : Nat) (token : RdToken)
    (s prevFinals : List BTerminal) (prevSc : List (BTerminal × Int)) :
    List (BTerminal × Int) × List (BTerminal × Int) :=
  let sc0 := initScores s
  if s.length ≤ 1 then (sc0, prevSc)
  else
    let sameFirst := s.all fun t => t.first == (s.headD ⟨"", "", []⟩).first
    let txt := token.lower
    let m0 := token.t2.headD ⟨"", 0, "", "", "", ""⟩
    let composite := token.isWord && !token.t2.isEmpty && m0.ordmynd.data.contains '-'
    let txtLast := if composite then String.mk (afterLastDash m0.ordmynd.data) else txt
    let prefs := if sameFirst then none else cfg.prefs txtLast
    let sc1 :=
      match prefs with
      | none => sc0
      | some [] => sc0
      | some ps => prefApply ps s sc0
    s.foldl
      (fun acc t =>
        let h := heurAdj cfg wstart i token s prevFinals txt txtLast composite t
        (scAdd acc.1 t h.1, if h.2 then bumpFirstNhm acc.2 else acc.2))
      (sc1, prevSc)

/-- The loop over the token indices spanned by the tree, accumulating the
    scores dictionary as an (index, score dict) association list. -/
def calcScoresGo (cfg : ScoresCfg) (wstart : Nat) (finals : Nat → List BTerminal)
    (tokens : Nat → RdToken) :
    Nat → Nat → List (Nat × List (BTerminal × Int)) → List (Nat × List (BTerminal × Int))
  | _, 0, acc => acc
  | i, n + 1, acc =>
    let prevSc := ((acc.find? fun e => e.1 = i - 1).map fun e => e.2).getD []
    let r := calcPosition cfg wstart i (tokens i) (finals i) (finals (i - 1)) prevSc
    let acc1 := (acc.map fun e => if e.1 = i - 1 then (e.1, r.2) else e) ++ [(i, r.1)]
    calcScoresGo cfg wstart finals tokens (i + 1) n acc1

/-- Reducer._calc_terminal_scores (second pass), parameterized by the
    iteration order of each finals[i] set. -/
def calcTerminalScores (cfg : ScoresCfg) (wstart wend : Nat)
    (finals : Nat → List BTerminal) (tokens : Nat → RdToken) :
    List (Nat × List (BTerminal × Int)) :=
  calcScoresGo cfg wstart finals tokens wstart (wend - wstart) []

/-- Read a terminal's score out of the computed table (the scores argument
    handed to ParseForestReducer). -/
def scoresFn (tbl : List (Nat × List (BTerminal × Int))) : Nat → BTerminal → Int :=
  fun i t =>
    (((((tbl.find? fun e => e.1 = i).map fun e => e.2).getD []).find?
        fun e => e.1 = t).map fun e => e.2).getD 0

/-! #### A concrete ambiguous two-token configuration whose reduction
depends on the set order

Token 0 can be two distinct nhm-first terminals, token 1 an infinitive verb
or a pronoun.  The so_nh terminal at position 1 triggers the adjacency
bump, which lands on whichever nhm terminal the set iteration yields
first. -/

def c8nhmA : BTerminal := mkTerminal "nhm"
def c8nhmB : BTerminal := mkTerminal "nhm_x"
def c8so : BTerminal := mkTerminal "so_nh"
def c8fn : BTerminal := mkTerminal "fn"

def c8tok0 : RdToken := ⟨"að", false, false, []⟩
def c8tok1 : RdToken := ⟨"fara", false, false, []⟩

def c8tokens : Nat → RdToken := fun i => if i = 0 then c8tok0 else c8tok1

/-- finals with the set at position 0 iterated as (nhm, nhm_x). -/
def c8finalsA : Nat → List BTerminal := fun i =>
  if i = 0 then [c8nhmA, c8nhmB] else if i = 1 then [c8so, c8fn] else []

/-- The same finals sets, position 0 iterated the other way. -/
def c8finalsB : Nat → List BTerminal := fun i =>
  if i = 0 then [c8nhmB, c8nhmA] else if i = 1 then [c8so, c8fn] else []

/-- Empty configuration tables. -/
def c8cfg0 : ScoresCfg := ⟨fun _ => none, [], [], []⟩

/-- The reducer configuration induced by a finals iteration order: terminal
    scores from _calc_terminal_scores, no $score adjustments, no
    verb-preposition bonuses. -/
def c8rconfig (finals : Nat → List BTerminal) : RConfig :=
  ⟨scoresFn (calcTerminalScores c8cfg0 0 2 finals c8tokens), fun _ => 0,
    fun _ _ _ _ => 0⟩

def c8fam0 : PChildren :=
  .cons (.tok 0 c8nhmA "að") (.cons (.tok 1 c8so "fara") .nil)
def c8fam1 : PChildren :=
  .cons (.tok 0 c8nhmB "að") (.cons (.tok 1 c8so "fara") .nil)
def c8fam2 : PChildren :=
  .cons (.tok 0 c8nhmA "að") (.cons (.tok 1 c8fn "fara") .nil)

def c8info : NTInfo := ⟨"S", [], false, 0, 2⟩

/-- The ambiguous root: three families over the same two token positions. -/
def c8forest : PNode := .nt c8info (famsOfList [c8fam0, c8fam1, c8fam2])

/-! ## Theorems -/

/-! ### Generic bit-vector lemmas -/

theorem testBit_landNot (a b i : Nat) :
    (landNot a b).testBit i = (a.testBit i && !(b.testBit i)) := by
  unfold landNot
  rw [Nat.testBit_land, Nat.testBit_xor]
  cases a.testBit i <;> cases b.testBit i <;> rfl

theorem landNot_eq_zero_iff (a b : Nat) :
    landNot a b = 0 ↔ ∀ i, a.testBit i = true → b.testBit i = true := by
  constructor
  · intro h i hi
    have ht := testBit_landNot a b i
    rw [h, Nat.zero_testBit, hi] at ht
    simpa using ht.symm
  · intro h
    apply Nat.eq_of_testBit_eq
    intro i
    rw [testBit_landNot, Nat.zero_testBit]
    cases ha : a.testBit i with
    | false => simp
    | true => simp [h i ha]

theorem land_eq_right_iff (x m : Nat) :
    (x &&& m) = m ↔ ∀ i, m.testBit i = true → x.testBit i = true := by
  constructor
  · intro h i hm
    have ht := congrArg (fun n => n.testBit i) h
    simp only [Nat.testBit_land] at ht
    rw [hm] at ht
    simpa using ht
  · intro h
    apply Nat.eq_of_testBit_eq
    intro i
    rw [Nat.testBit_land]
    cases hm : m.testBit i with
    | false => simp
    | true => simp [h i hm]

theorem lookupIdx_getD (l : List String) (v : String) (j : Nat)
    (h : lookupIdx l v = some j) : l.getD j "" = v := by
  induction l generalizing j with
  | nil => simp [lookupIdx] at h
  | cons a l ih =>
    rw [lookupIdx] at h
    by_cases ha : a = v
    · rw [if_pos ha] at h
      obtain rfl : (0 : Nat) = j := by simpa using h
      simpa using ha
    · rw [if_neg ha] at h
      cases hl : lookupIdx l v with
      | none => rw [hl] at h; simp at h
      | some k =>
        rw [hl] at h
        obtain rfl : k + 1 = j := by simpa using h
        simpa using ih k hl

theorem VBIT_testBit_iff (v : String) (i : Nat) (k : String)
    (h1 : variantKeys.getD i "" = k) (h2 : lookupIdx variantKeys k = some i) :
    ((VBIT v).testBit i = true) ↔ v = k := by
  constructor
  · intro hb
    unfold VBIT at hb
    cases hl : lookupIdx variantKeys v with
    | none => rw [hl] at hb; simp [Nat.zero_testBit] at hb
    | some j =>
      rw [hl] at hb
      rcases eq_or_ne j i with rfl | hij
      · have hg := lookupIdx_getD variantKeys v j hl
        rw [h1] at hg
        exact hg.symm
      · rw [Nat.testBit_two_pow_of_ne hij] at hb
        exact absurd hb (by simp)
  · intro hv
    subst hv
    unfold VBIT
    rw [h2]
    exact Nat.testBit_two_pow_self

theorem testBit_foldl_or (parts : List String) (x : Nat) (i : Nat) :
    (parts.foldl (fun a v => a ||| VBIT v) x).testBit i =
      (x.testBit i || parts.any fun v => (VBIT v).testBit i) := by
  induction parts generalizing x with
  | nil => simp
  | cons p ps ih =>
    simp only [List.foldl_cons, List.any_cons]
    rw [ih, Nat.testBit_lor, Bool.or_assoc]

theorem vbits_testBit_iff (t : BTerminal) (i : Nat) (k : String)
    (h1 : variantKeys.getD i "" = k) (h2 : lookupIdx variantKeys k = some i) :
    (t.vbits.testBit i = true) ↔ k ∈ t.vparts := by
  unfold BTerminal.vbits
  rw [testBit_foldl_or]
  simp only [Nat.zero_testBit, Bool.false_or, List.any_eq_true]
  constructor
  · rintro ⟨v, hvmem, hvb⟩
    rw [(VBIT_testBit_iff v i k h1 h2).mp hvb] at hvmem
    exact hvmem
  · intro hk
    exact ⟨k, hk, (VBIT_testBit_iff k i k h1 h2).mpr rfl⟩

theorem hasVbits_single_iff (t : BTerminal) (i : Nat) (k : String)
    (h1 : variantKeys.getD i "" = k) (h2 : lookupIdx variantKeys k = some i) :
    t.hasVbits (2 ^ i) = true ↔ k ∈ t.vparts := by
  unfold BTerminal.hasVbits
  rw [show ((t.vbits &&& 2 ^ i == 2 ^ i) = true) ↔ (t.vbits &&& 2 ^ i = 2 ^ i) from
    beq_iff_eq]
  rw [land_eq_right_iff]
  constructor
  · intro h
    exact (vbits_testBit_iff t i k h1 h2).mp (h i Nat.testBit_two_pow_self)
  · intro hk j hj
    rw [Nat.testBit_two_pow] at hj
    obtain rfl : i = j := by simpa using hj
    exact (vbits_testBit_iff t i k h1 h2).mpr hk

theorem hasVbits_et_hk_iff (t : BTerminal) :
    t.hasVbits (VBIT_ET ||| VBIT_HK) = true ↔ ("et" ∈ t.vparts ∧ "hk" ∈ t.vparts) := by
  unfold BTerminal.hasVbits
  rw [show ((t.vbits &&& (VBIT_ET ||| VBIT_HK) == VBIT_ET ||| VBIT_HK) = true) ↔
      (t.vbits &&& (VBIT_ET ||| VBIT_HK) = VBIT_ET ||| VBIT_HK) from beq_iff_eq]
  rw [land_eq_right_iff]
  have hm : (VBIT_ET ||| VBIT_HK) = 192 := by decide
  rw [hm]
  constructor
  · intro h
    refine ⟨?_, ?_⟩
    · exact (vbits_testBit_iff t 7 "et" (by decide) (by decide)).mp (h 7 (by decide))
    · exact (vbits_testBit_iff t 6 "hk" (by decide) (by decide)).mp (h 6 (by decide))
  · rintro ⟨het, hhk⟩ i hi
    have hcase : i = 6 ∨ i = 7 := by
      rcases Nat.lt_or_ge i 8 with h8 | h8
      · interval_cases i <;> revert hi <;> decide
      · exfalso
        have hlt : (192 : Nat) < 2 ^ i :=
          lt_of_lt_of_le (by norm_num) (Nat.pow_le_pow_right (by norm_num) h8)
        rw [Nat.testBit_lt_two_pow hlt] at hi
        exact absurd hi (by simp)
    rcases hcase with rfl | rfl
    · exact (vbits_testBit_iff t 6 "hk" (by decide) (by decide)).mpr hhk
    · exact (vbits_testBit_iff t 7 "et" (by decide) (by decide)).mpr het

theorem hasVbits_gr_iff (t : BTerminal) :
    t.hasVbits VBIT_GR = true ↔ "gr" ∈ t.vparts := by
  have hm : VBIT_GR = 2 ^ 29 := by decide
  rw [hm]
  exact hasVbits_single_iff t 29 "gr" (by decide) (by decide)

/-! ### C2: feature-bit matching of word tokens against terminals -/

/-- Helper: matcher_default in the informative case reduces to the pure
    feature-bit test. -/
theorem matcherDefault_eq_fbitsMatch (t : BTerminal) (m : BMeaning)
    (h1 : matchesFirst t m.ordfl = true) (h2 : m.beyging ≠ "-") :
    matcherDefault t m = t.fbitsMatch (get_fbits (m.beyging ++ GENDERS_MAP m.ordfl)) := by
  unfold matcherDefault
  rw [if_pos h1, if_neg]
  simp [h2]

/-- C2 (amended): for a terminal handled by the default matcher and a reading
    with a matching word category and real inflection data, the match succeeds
    if and only if every feature bit required by the terminal is present in the
    feature bits derived from the reading's inflection tag (with the noun
    gender folded in, as the source does). -/
theorem C2_fbits_match_iff (t : BTerminal) (m : BMeaning)
    (h1 : matchesFirst t m.ordfl = true) (h2 : m.beyging ≠ "-") :
    (matchDefaultCategory t [m]).isSome = true ↔
      ∀ i, t.fbits.testBit i = true →
        (get_fbits (m.beyging ++ GENDERS_MAP m.ordfl)).testBit i = true := by
  have hfind : matchDefaultCategory t [m] =
      if matcherDefault t m then some m else none := by
    simp only [matchDefaultCategory, List.find?]
    cases matcherDefault t m <;> simp
  rw [hfind, matcherDefault_eq_fbitsMatch t m h1 h2]
  unfold BTerminal.fbitsMatch
  by_cases hz : landNot t.fbits (get_fbits (m.beyging ++ GENDERS_MAP m.ordfl)) = 0
  · rw [hz]
    simp only [beq_self_eq_true, if_true, Option.isSome_some]
    constructor
    · intro _
      exact (landNot_eq_zero_iff _ _).mp hz
    · intro _
      trivial
  · have hb : (landNot t.fbits (get_fbits (m.beyging ++ GENDERS_MAP m.ordfl)) == 0) = false := by
      simpa using hz
    simp only [hb, Bool.false_eq_true, if_false, Option.isSome_none]
    constructor
    · intro habs
      exact absurd habs (by simp)
    · intro hall
      exact absurd ((landNot_eq_zero_iff _ _).mpr hall) hz

/-- C2 witness: the amended equivalence applied at a concrete pronoun terminal
    and reading. -/
theorem C2_fbits_match_iff_witness :
    (matchDefaultCategory (mkTerminal "fn_et")
        [⟨"sá", 0, "fn", "alm", "sá", "ET-KK-NF"⟩]).isSome = true ↔
      ∀ i, (mkTerminal "fn_et").fbits.testBit i = true →
        (get_fbits ("ET-KK-NF" ++ GENDERS_MAP "fn")).testBit i = true :=
  C2_fbits_match_iff (mkTerminal "fn_et") ⟨"sá", 0, "fn", "alm", "sá", "ET-KK-NF"⟩
    (by decide) (by decide)

/-- C2 counterexample: the claim as stated (match succeeds iff the terminal's
    feature bits are contained in the reading's feature bits) fails for a
    reading whose word category does not match the terminal: the bare pronoun
    terminal fn requires no feature bits at all, yet an adverb reading does
    not match it. -/
theorem C2_counterexample :
    (∀ i, (mkTerminal "fn").fbits.testBit i = true →
        (get_fbits (BMeaning.beyging ⟨"hér", 0, "ao", "alm", "hér", "-"⟩)).testBit i = true)
    ∧ matchDefaultCategory (mkTerminal "fn") [⟨"hér", 0, "ao", "alm", "hér", "-"⟩] = none := by
  constructor
  · intro i hi
    have h0 : (mkTerminal "fn").fbits = 0 := by decide
    rw [h0, Nat.zero_testBit] at hi
    exact absurd hi (by simp)
  · decide

/-! ### C5: fallback matching of unknown words (binparser.py 1296-1313) -/

/-- C5 counterexample: an unknown word starting with an upper-case letter
    matches the bare singular neuter noun terminal as well, so the claimed
    partition (upper-case only to bare proper-name terminals) fails. -/
theorem C5_counterexample :
    matchesWORDUnknown (mkTerminal "no_et_hk") true "hestur" = true
    ∧ (mkTerminal "no_et_hk").first ≠ "sérnafn" := by
  constructor
  · decide
  · decide

/-- C5 (amended): an unknown word matches a terminal exactly when either the
    word is upper-case and the terminal is a bare, variant-free proper-name
    terminal and the word has no space, or (regardless of capitalization) the
    terminal is a common-noun terminal carrying the singular and neuter
    variants but not the definite-article variant. -/
theorem C5_unknown_word_fallback (t : BTerminal) (u : Bool) (l : String) :
    matchesWORDUnknown t u l = true ↔
      ((u = true ∧ t.first = "sérnafn" ∧ t.numVariants = 0 ∧ l.data.contains ' ' = false)
       ∨ (t.first = "no" ∧ "et" ∈ t.vparts ∧ "hk" ∈ t.vparts ∧ "gr" ∉ t.vparts)) := by
  unfold matchesWORDUnknown
  by_cases hc : (u && (t.first == "sérnafn") && (t.numVariants == 0)
      && !(l.data.contains ' ')) = true
  · rw [if_pos hc]
    simp only [Bool.and_eq_true, Bool.not_eq_true', beq_iff_eq] at hc
    obtain ⟨⟨⟨hu, hf⟩, hn⟩, hs⟩ := hc
    constructor
    · intro _
      exact Or.inl ⟨hu, hf, hn, hs⟩
    · intro _
      rfl
  · rw [if_neg hc]
    constructor
    · intro h
      simp only [Bool.and_eq_true, Bool.not_eq_true', beq_iff_eq] at h
      obtain ⟨⟨hf, hv⟩, hg⟩ := h
      refine Or.inr ⟨hf, ?_, ?_, ?_⟩
      · exact ((hasVbits_et_hk_iff t).mp hv).1
      · exact ((hasVbits_et_hk_iff t).mp hv).2
      · intro hmem
        have hbit := (hasVbits_gr_iff t).mpr hmem
        rw [hbit] at hg
        exact absurd hg (by simp)
    · rintro (⟨hu, hf, hn, hs⟩ | ⟨hf, het, hhk, hgr⟩)
      · exact absurd
          (show (u && (t.first == "sérnafn") && (t.numVariants == 0)
              && !(l.data.contains ' ')) = true by
            have hs2 : (' ' ∈ l.data) = False := by simpa using hs
            simp [hu, hf, hn, hs2]) hc
      · simp only [Bool.and_eq_true, Bool.not_eq_true', beq_iff_eq]
        refine ⟨⟨hf, (hasVbits_et_hk_iff t).mpr ⟨het, hhk⟩⟩, ?_⟩
        cases hgv : t.hasVbits VBIT_GR with
        | false => rfl
        | true => exact absurd ((hasVbits_gr_iff t).mp hgv) hgr

/-! ### C9: mm_verb_stem (binparser.py 533-542) -/

/-- C9: mm_verb_stem always produces a stem ending in "st"; it is the
    identity exactly on stems already ending in "st" (appending "st"
    otherwise); hence it is idempotent. -/
theorem C9_mm_verb_stem (v : List Char) :
    List.isSuffixOf ['s', 't'] (mm_verb_stem v) = true
    ∧ (mm_verb_stem v = v ↔ List.isSuffixOf ['s', 't'] v = true)
    ∧ mm_verb_stem (mm_verb_stem v) = mm_verb_stem v := by
  have hsuf : List.isSuffixOf ['s', 't'] (mm_verb_stem v) = true := by
    unfold mm_verb_stem
    by_cases h : List.isSuffixOf ['s', 't'] v = true
    · rw [if_pos h]
      exact h
    · rw [if_neg h]
      rw [List.isSuffixOf_iff_suffix]
      exact List.suffix_append v ['s', 't']
  have hiff : mm_verb_stem v = v ↔ List.isSuffixOf ['s', 't'] v = true := by
    constructor
    · intro he
      by_cases h : List.isSuffixOf ['s', 't'] v = true
      · exact h
      · exfalso
        unfold mm_verb_stem at he
        rw [if_neg h] at he
        have hl := congrArg List.length he
        simp only [List.length_append, List.length_cons, List.length_nil] at hl
        omega
    · intro h
      unfold mm_verb_stem
      rw [if_pos h]
  refine ⟨hsuf, hiff, ?_⟩
  generalize hw : mm_verb_stem v = w at hsuf
  unfold mm_verb_stem
  rw [if_pos hsuf]

/-! ### C10: singular/plural matching of integer number tokens -/

/-- C10: for an integer number token, a plural-only terminal is rejected
    exactly when the number is grammatically singular, and a singular-only
    terminal is rejected exactly when the number is grammatically plural and
    not the special case 365. -/
theorem C10_number_singular_plural (n : Int) (t : BTerminal) :
    (t.isPlural = true → t.isSingular = false →
      (isCorrectSingularOrPlural n t = false ↔ grammaticallySingular n))
    ∧ (t.isSingular = true → t.isPlural = false →
      (isCorrectSingularOrPlural n t = false ↔ (¬ grammaticallySingular n ∧ n ≠ 365))) := by
  constructor
  · intro hp hs
    unfold isCorrectSingularOrPlural
    rw [hs, hp]
    simp only [Bool.false_and, Bool.true_and, Bool.false_eq_true, if_false]
    by_cases hb : ((n.natAbs % 100 != 11) && (n.natAbs % 100 % 10 == 1)) = true
    · rw [if_pos hb]
      simp only [Bool.and_eq_true, bne_iff_ne, beq_iff_eq] at hb
      exact iff_of_true rfl hb
    · rw [if_neg hb]
      simp only [Bool.and_eq_true, bne_iff_ne, beq_iff_eq] at hb
      constructor
      · intro habs
        exact absurd habs (by simp)
      · intro hg
        exact absurd hg hb
  · intro hs hp
    unfold isCorrectSingularOrPlural
    rw [hs, hp]
    simp only [Bool.true_and, Bool.false_and, Bool.false_eq_true, if_false]
    by_cases hb : ((n.natAbs % 100 != 11) && (n.natAbs % 100 % 10 == 1)) = true
    · rw [if_neg (by simp [hb])]
      simp only [Bool.and_eq_true, bne_iff_ne, beq_iff_eq] at hb
      constructor
      · intro habs
        exact absurd habs (by simp)
      · rintro ⟨hng, _⟩
        exact absurd hb hng
    · have hb2 : ((n.natAbs % 100 != 11) && (n.natAbs % 100 % 10 == 1)) = false := by
        simpa using hb
      rw [if_pos (by simp [hb2])]
      simp only [Bool.and_eq_true, bne_iff_ne, beq_iff_eq] at hb
      have hc : (SINGULAR_SPECIAL_CASES.contains n = true) ↔ n = 365 := by
        simp [SINGULAR_SPECIAL_CASES]
      constructor
      · intro hne
        refine ⟨hb, ?_⟩
        intro h365
        rw [hc.mpr h365] at hne
        exact absurd hne (by simp)
      · rintro ⟨_, hne⟩
        cases hcc : SINGULAR_SPECIAL_CASES.contains n with
        | false => rfl
        | true => exact absurd (hc.mp hcc) hne

/-- C10 witness: plural terminal "tala_ft" with the grammatically singular
    number 21 is rejected. -/
theorem C10_number_singular_plural_witness :
    isCorrectSingularOrPlural 21 (mkTerminal "tala_ft") = false ↔
      grammaticallySingular 21 :=
  (C10_number_singular_plural 21 (mkTerminal "tala_ft")).1 (by decide) (by decide)

/-! ### C6: compound fallback in the lexicon access layer -/

/-- C6 counterexample: for the uppercase word Xy in mid-sentence, unknown in
    the lexicon in both cases and sliced (after the lower-case retry) into
    x + y where y has only a verb reading, the claimed result (the open-
    category readings of the last part with the prefix prepended) is
    non-empty, but _lookup returns no readings: the capitalized-mid-sentence
    noun filter removes the verb reading first. -/
theorem C6_counterexample :
    pyLookupWord
        ⟨fun s => if s = "y" then [⟨"ydda", 1, "so", "alm", "y", "GM-NH"⟩] else [],
         fun s => if s = "xy" then some ["x", "y"] else none, []⟩
        "Xy" false false
      = ("Xy", [])
    ∧ prefix_meanings
        (open_cats ((fun s : String =>
          if s = "y" then [(⟨"ydda", 1, "so", "alm", "y", "GM-NH"⟩ : BMeaning)] else []) "y"))
        "x" ≠ [] := by
  refine ⟨by decide, by decide⟩

/-- C6 (amended): when the direct lookup (including the lower-case retry)
    and the adjective heuristic yield nothing and slicing the word (retrying
    in lower case) succeeds with a non-empty part list, _lookup returns the
    readings of the last part - filtered to noun categories when the word is
    an uppercase word in mid-sentence - restricted to open word categories,
    with the joined prefix prepended to stem and surface form; the word
    itself is returned unchanged and no error is raised (the function is
    total by construction). -/
theorem C6_compound_fallback (env : LookupEnv) (w : String) (at1 : Bool)
    (c : List String)
    (h1 : env.lookup w = [])
    (h2 : pyLower w ≠ w → env.lookup (pyLower w) = [])
    (h3 : adjectiveMeanings env (pyLower w) = [])
    (h4 : sliceWithRetry env w (pyLower w) = some c)
    (h5 : c ≠ [])
    (h6 : prefix_meanings (open_cats
        (if pyLower w ≠ w ∧ at1 = false then
          (env.lookup (c.getLastD "")).filter fun mm => BIN_Db_NOUNS.contains mm.ordfl
         else env.lookup (c.getLastD "")))
        (joinDash c.dropLast) ≠ []) :
    pyLookupWord env w at1 false
      = (w, prefix_meanings (open_cats
          (if pyLower w ≠ w ∧ at1 = false then
            (env.lookup (c.getLastD "")).filter fun mm => BIN_Db_NOUNS.contains mm.ordfl
           else env.lookup (c.getLastD "")))
          (joinDash c.dropLast)) := by
  have hce : c.isEmpty = false := by simpa using h5
  have hcomp : compoundMeanings env w (pyLower w) at1
      = prefix_meanings (open_cats
          (if pyLower w ≠ w ∧ at1 = false then
            (env.lookup (c.getLastD "")).filter fun mm => BIN_Db_NOUNS.contains mm.ordfl
           else env.lookup (c.getLastD "")))
          (joinDash c.dropLast) := by
    unfold compoundMeanings
    rw [h4]
    dsimp only
    rw [hce]
    simp
  have hne2 : (prefix_meanings (open_cats
      (if pyLower w ≠ w ∧ at1 = false then
        (env.lookup (c.getLastD "")).filter fun mm => BIN_Db_NOUNS.contains mm.ordfl
       else env.lookup (c.getLastD "")))
      (joinDash c.dropLast)).isEmpty = false := by
    simpa using h6
  unfold pyLookupWord
  by_cases hlw : pyLower w = w
  · rw [hlw] at h3 hcomp hne2 h6
    simp [h1, h3, hcomp, hne2, hlw, List.getLastD_eq_getLast?]
    intro hV
    refine absurd hV ?_
    simpa [List.getLastD_eq_getLast?] using h6
  · simp [h1, h2 hlw, hlw, h3, hcomp, hne2, List.getLastD_eq_getLast?]
    intro hV
    refine absurd hV ?_
    simpa [List.getLastD_eq_getLast?, hlw] using h6

/-- C6 witness: the amended fallback behavior at a concrete lower-case
    compound word ab+c whose last part has one neuter-noun reading. -/
theorem C6_compound_fallback_witness :
    pyLookupWord
        ⟨fun s => if s = "c" then [⟨"cc", 1, "hk", "alm", "c", "NFET"⟩] else [],
         fun s => if s = "abc" then some ["ab", "c"] else none, []⟩
        "abc" false false
      = ("abc", prefix_meanings (open_cats
          (if pyLower "abc" ≠ "abc" ∧ false = false then
            (((fun s : String =>
              if s = "c" then [(⟨"cc", 1, "hk", "alm", "c", "NFET"⟩ : BMeaning)] else [])
                (["ab", "c"].getLastD "")).filter fun mm =>
                  BIN_Db_NOUNS.contains mm.ordfl)
           else ((fun s : String =>
              if s = "c" then [(⟨"cc", 1, "hk", "alm", "c", "NFET"⟩ : BMeaning)] else [])
                (["ab", "c"].getLastD ""))))
          (joinDash (["ab", "c"] : List String).dropLast)) :=
  C6_compound_fallback
    ⟨fun s => if s = "c" then [⟨"cc", 1, "hk", "alm", "c", "NFET"⟩] else [],
     fun s => if s = "abc" then some ["ab", "c"] else none, []⟩
    "abc" false ["ab", "c"]
    (by decide) (fun h => absurd (by decide) h) (by decide) (by decide)
    (by decide) (by decide)

/-! ### C4: reducer scope-stack balance -/

/-- mergeScore only ever replaces the top frame of the verb stack. -/
theorem mergeScore_state (acc child : RScore) (s : RState) :
    (mergeScore acc child s).2.prepStack = s.prepStack
    ∧ ∃ v, (mergeScore acc child s).2.verbStack = v :: s.verbStack.tail
    ∨ (mergeScore acc child s).2 = s := by
  unfold mergeScore
  cases child.sl with
  | none =>
    refine ⟨rfl, none, Or.inr rfl⟩
  | some l =>
    refine ⟨rfl, some l, Or.inl rfl⟩

mutual

theorem reduceNode_state (cfg : RConfig) :
    ∀ (s : RState) (n : PNode), (reduceNode cfg s n).2.2 = s
  | _, .eps => rfl
  | _, .tok _ _ _ => rfl
  | s, .nt info fams => by
    rcases s with ⟨ps, vs⟩
    rw [reduceNode]
    by_cases hspan : info.start < info.stop
    · rw [if_pos hspan]
      by_cases he : info.tags.contains "enable_prep_bonus"
      · have he2 : "enable_prep_bonus" ∈ info.tags := by simpa using he
        obtain ⟨hp, v, hv⟩ := reduceFams_state cfg
          ⟨vs.head?.getD none :: ps, vs.head?.getD none :: vs⟩ (vs.head?.getD none) 0 fams
          (by simp)
        simp [he2, RState.getVerb, RState.pushPrep, RState.pushVerb,
          RState.popPrep, RState.popVerb, hp, hv]
      · have he2 : "enable_prep_bonus" ∉ info.tags := by simpa using he
        by_cases hb : (info.tags.contains "begin_prep_scope" || info.isNounPhrase) = true
        · have hb2 : "begin_prep_scope" ∈ info.tags ∨ info.isNounPhrase = true := by
            simpa using hb
          obtain ⟨hp, v, hv⟩ := reduceFams_state cfg
            ⟨none :: ps, (none : Option (List (BTerminal × String))) :: vs⟩ none 0 fams
            (by simp)
          simp [he2, hb2, RState.getVerb, RState.pushPrep, RState.pushVerb,
            RState.popPrep, RState.popVerb, hp, hv]
        · have hb2 : ¬("begin_prep_scope" ∈ info.tags ∨ info.isNounPhrase = true) := by
            simpa using hb
          obtain ⟨hp, v, hv⟩ := reduceFams_state cfg
            ⟨ps, vs.head?.getD none :: vs⟩ (vs.head?.getD none) 0 fams (by simp)
          simp [he2, hb2, RState.getVerb, RState.pushPrep, RState.pushVerb,
            RState.popPrep, RState.popVerb, hp, hv]
    · rw [if_neg hspan]

theorem reduceFams_state (cfg : RConfig) :
    ∀ (s : RState) (sv : Option (List (BTerminal × String))) (ix : Nat) (f : PFams),
      s.verbStack ≠ [] →
      (reduceFams cfg s sv ix f).2.2.prepStack = s.prepStack
      ∧ ∃ v, (reduceFams cfg s sv ix f).2.2.verbStack = v :: s.verbStack.tail
  | s, sv, ix, .nil, h => by
    rw [reduceFams]
    exact ⟨rfl, s.verbStack.headD none, by
      cases hv : s.verbStack with
      | nil => exact absurd hv h
      | cons a t => simp [hv]⟩
  | s, sv, ix, .cons ch rest, h => by
    rw [reduceFams]
    have h1 : (s.setVerb sv).verbStack ≠ [] := by simp [RState.setVerb]
    obtain ⟨hcp, v, hcv⟩ := reduceChildren_state cfg (s.setVerb sv) ⟨0, none, none⟩ ch h1
    have h2 : (reduceChildren cfg (s.setVerb sv) ⟨0, none, none⟩ ch).2.2.2.verbStack ≠ [] := by
      rw [hcv]; simp
    obtain ⟨hfp, w, hfv⟩ := reduceFams_state cfg _ sv (ix + 1) rest h2
    refine ⟨?_, w, ?_⟩
    · rw [hfp, hcp]
      rfl
    · rw [hfv, hcv]
      simp [RState.setVerb]

theorem reduceChildren_state (cfg : RConfig) :
    ∀ (s : RState) (acc : RScore) (c : PChildren),
      s.verbStack ≠ [] →
      (reduceChildren cfg s acc c).2.2.2.prepStack = s.prepStack
      ∧ ∃ v, (reduceChildren cfg s acc c).2.2.2.verbStack = v :: s.verbStack.tail
  | s, acc, .nil, h => by
    rw [reduceChildren]
    exact ⟨rfl, s.verbStack.headD none, by
      cases hv : s.verbStack with
      | nil => exact absurd hv h
      | cons a t => simp [hv]⟩
  | s, acc, .cons c rest, h => by
    rw [reduceChildren]
    have hn := reduceNode_state cfg s c
    obtain ⟨hmp, hmv⟩ :=
      mergeScore_state acc (reduceNode cfg s c).2.1 (reduceNode cfg s c).2.2
    set m := mergeScore acc (reduceNode cfg s c).2.1 (reduceNode cfg s c).2.2 with hm
    have hmvs : ∃ v, m.2.verbStack = v :: s.verbStack.tail := by
      rcases hmv with ⟨v, hv | he⟩
      · exact ⟨v, by rw [hv, hn]⟩
      · refine ⟨s.verbStack.headD none, ?_⟩
        rw [he, hn]
        cases hvs : s.verbStack with
        | nil => exact absurd hvs h
        | cons a t => simp [hvs]
    obtain ⟨v, hv⟩ := hmvs
    have h2 : m.2.verbStack ≠ [] := by rw [hv]; simp
    obtain ⟨hrp, w, hrv⟩ := reduceChildren_state cfg m.2 m.1 rest h2
    refine ⟨?_, w, ?_⟩
    · rw [hrp, hmp, hn]
    · rw [hrv, hv]
      simp

end

/-- C4: starting from the base state (both stacks holding their single base
    frame, as checked by _check_stacks before the walk), reducing any forest
    returns with both stacks back at the base frame: every push performed on
    node entry is matched by a pop on exit. -/
theorem C4_stack_invariant (cfg : RConfig) (root : PNode) :
    checkStacks baseState ∧ checkStacks (reduceGo cfg root).2.2 := by
  refine ⟨⟨rfl, rfl⟩, ?_⟩
  unfold reduceGo
  rw [reduceNode_state cfg baseState root]
  exact ⟨rfl, rfl⟩

/-! ### C1: maximum-score family selection -/

/-- Transitivity of the (score strictly larger, or equal score with index at
    most) dominance used by the selection fold. -/
theorem domTrans (a b c : Nat × RScore)
    (h1 : b.2.sc < a.2.sc ∨ (b.2.sc = a.2.sc ∧ a.1 ≤ b.1))
    (h2 : c.2.sc < b.2.sc ∨ (c.2.sc = b.2.sc ∧ b.1 ≤ c.1)) :
    c.2.sc < a.2.sc ∨ (c.2.sc = a.2.sc ∧ a.1 ≤ c.1) := by
  omega

/-- Specification of the selection fold of pySelect: the result is the seed
    or one of the elements, and it dominates the seed and every element. -/
theorem selFold_spec (xs : List (Nat × RScore)) :
    ∀ b : Nat × RScore,
      ((xs.foldl (fun best cand => if betterKey best cand then cand else best) b) = b
        ∨ (xs.foldl (fun best cand => if betterKey best cand then cand else best) b) ∈ xs)
      ∧ (b.2.sc < (xs.foldl (fun best cand => if betterKey best cand then cand else best) b).2.sc
          ∨ (b.2.sc = (xs.foldl (fun best cand => if betterKey best cand then cand else best) b).2.sc
             ∧ (xs.foldl (fun best cand => if betterKey best cand then cand else best) b).1 ≤ b.1))
      ∧ ∀ e ∈ xs,
          e.2.sc < (xs.foldl (fun best cand => if betterKey best cand then cand else best) b).2.sc
          ∨ (e.2.sc = (xs.foldl (fun best cand => if betterKey best cand then cand else best) b).2.sc
             ∧ (xs.foldl (fun best cand => if betterKey best cand then cand else best) b).1 ≤ e.1) := by
  induction xs with
  | nil =>
    intro b
    exact ⟨Or.inl rfl, Or.inr ⟨rfl, le_refl _⟩, by simp⟩
  | cons x xs ih =>
    intro b
    simp only [List.foldl_cons]
    obtain ⟨hmem, hdom, hall⟩ := ih (if betterKey b x then x else b)
    have hbx : (b.2.sc < (if betterKey b x then x else b).2.sc
          ∨ (b.2.sc = (if betterKey b x then x else b).2.sc
             ∧ (if betterKey b x then x else b).1 ≤ b.1))
        ∧ (x.2.sc < (if betterKey b x then x else b).2.sc
          ∨ (x.2.sc = (if betterKey b x then x else b).2.sc
             ∧ (if betterKey b x then x else b).1 ≤ x.1)) := by
      by_cases h : betterKey b x = true
      · rw [if_pos h]
        simp only [betterKey, Bool.or_eq_true, Bool.and_eq_true, decide_eq_true_eq] at h
        constructor
        · omega
        · exact Or.inr ⟨rfl, le_refl _⟩
      · rw [if_neg h]
        simp only [betterKey, Bool.or_eq_true, Bool.and_eq_true, decide_eq_true_eq] at h
        push_neg at h
        constructor
        · exact Or.inr ⟨rfl, le_refl _⟩
        · by_cases heq : b.2.sc = x.2.sc
          · exact Or.inr ⟨heq.symm, h.2 heq⟩
          · exact Or.inl (lt_of_le_of_ne h.1 fun hx => heq hx.symm)
    refine ⟨?_, ?_, ?_⟩
    · rcases hmem with hmem | hmem
      · rw [hmem]
        by_cases h : betterKey b x = true
        · rw [if_pos h]
          exact Or.inr (List.mem_cons_self x xs)
        · rw [if_neg h]
          exact Or.inl rfl
      · exact Or.inr (List.mem_cons_of_mem x hmem)
    · exact domTrans _ _ _ hdom hbx.1
    · intro e he
      rcases List.mem_cons.mp he with rfl | he2
      · exact domTrans _ _ _ hdom hbx.2
      · exact hall e he2

/-- Specification of pySelect: for a non-empty scored family list, the
    selected entry belongs to the list, its score is maximal, and among the
    maximal entries its family index is smallest. -/
theorem pySelect_spec (l : List (Nat × RScore)) (ix : Nat) (sc : RScore)
    (h : pySelect l = some (ix, sc)) :
    ((ix, sc) ∈ l ∧ ∀ e ∈ l, e.2.sc < sc.sc ∨ (e.2.sc = sc.sc ∧ ix ≤ e.1)) := by
  cases l with
  | nil => simp [pySelect] at h
  | cons x xs =>
    rw [pySelect] at h
    obtain hres : xs.foldl (fun best cand => if betterKey best cand then cand else best) x
        = (ix, sc) := by simpa using h
    obtain ⟨hmem, hdom, hall⟩ := selFold_spec xs x
    rw [hres] at hmem hdom hall
    refine ⟨?_, ?_⟩
    · rcases hmem with hmem | hmem
      · rw [← hmem]
        exact List.mem_cons_self _ _
      · exact List.mem_cons_of_mem x hmem
    · intro e he
      rcases List.mem_cons.mp he with rfl | he2
      · exact hdom
      · exact hall e he2

/-- C1 (as claimed): the reducer's family selection keeps the family whose
    accumulated score is maximal, breaking ties toward the lowest family
    index; scenario C (scores 10 and 7 at indices 0 and 1 reduce to index 0
    with score 10, checked through a full forest reduction including the
    reduce_to pruning) and scenario D (a tie at 8 between indices 2 and 5 is
    resolved to index 2). -/
theorem C1_best_family_selection :
    (∀ (l : List (Nat × RScore)) (ix : Nat) (sc : RScore),
        pySelect l = some (ix, sc) →
        ((ix, sc) ∈ l ∧ ∀ e ∈ l, e.2.sc < sc.sc ∨ (e.2.sc = sc.sc ∧ ix ≤ e.1)))
    ∧ pySelect [(0, ⟨10, none, none⟩), (1, ⟨7, none, none⟩)]
        = some (0, ⟨10, none, none⟩)
    ∧ pySelect [(2, ⟨8, none, none⟩), (5, ⟨8, none, none⟩)]
        = some (2, ⟨8, none, none⟩)
    ∧ reduceGo
        ⟨fun _ t => if t = mkTerminal "ao" then 10 else 7, fun _ => 0, fun _ _ _ _ => 0⟩
        (.nt ⟨"X", [], false, 0, 1⟩
          (famsOfList [PChildren.cons (.tok 0 (mkTerminal "ao") "a") .nil,
                       PChildren.cons (.tok 0 (mkTerminal "lo") "b") .nil]))
        = (.nt ⟨"X", [], false, 0, 1⟩
            (famsOfList [PChildren.cons (.tok 0 (mkTerminal "ao") "a") .nil]),
           ⟨10, none, none⟩, baseState) := by
  refine ⟨pySelect_spec, by decide, by decide, by decide⟩

/-! ### C3: compound-word decomposition -/

/-- Every decomposition produced by the joiner loop names a joiner of the
    given list that fits the text and a tail decomposition of the remainder. -/
theorem tryJoinersLoop_mem (recur : List Char → List (List (List Char)))
    (w : List Char) (i : Nat) (p : List Char) :
    ∀ (js : List (List Char)) (d : List (List Char)),
      d ∈ tryJoinersLoop recur w i p js →
      ∃ j ∈ js, (j = [] ∨ (i + j.length < w.length ∧ (w.drop i).take j.length = j))
        ∧ ∃ tail ∈ recur (w.drop (i + j.length)), d = (p ++ j) :: tail := by
  intro js
  induction js with
  | nil =>
    intro d hd
    rw [tryJoinersLoop] at hd
    simp at hd
  | cons j js ih =>
    intro d hd
    rw [tryJoinersLoop] at hd
    by_cases hc : (j = [] ∨ (i + j.length < w.length ∧ (w.drop i).take j.length = j))
    · rw [if_pos hc] at hd
      by_cases hr : (recur (w.drop (i + j.length))).isEmpty = true
      · rw [if_pos hr] at hd
        obtain ⟨j2, hmem, hcond, tail, htail, hform⟩ := ih d hd
        exact ⟨j2, List.mem_cons_of_mem j hmem, hcond, tail, htail, hform⟩
      · rw [if_neg hr] at hd
        obtain ⟨tail, htail, hform⟩ := List.mem_map.mp hd
        exact ⟨j, List.mem_cons_self _ _, hc, tail, htail, hform.symm⟩
    · rw [if_neg hc] at hd
      obtain ⟨j2, hmem, hcond, tail, htail, hform⟩ := ih d hd
      exact ⟨j2, List.mem_cons_of_mem j hmem, hcond, tail, htail, hform⟩

/-- Decompositions are never the empty list of parts. -/
theorem compoundPartsF_ne_nil (S : List (List Char)) (fuel : Nat) (w : List Char)
    (d : List (List Char)) (hd : d ∈ compoundPartsF S fuel w) : d ≠ [] := by
  cases fuel with
  | zero => simp [compoundPartsF] at hd
  | succ fuel =>
    rw [compoundPartsF] at hd
    by_cases hS : S.contains w = true
    · rw [if_pos hS] at hd
      simp at hd
      subst hd
      simp
    · rw [if_neg hS] at hd
      simp only [List.mem_flatMap] at hd
      obtain ⟨i, hi, hd⟩ := hd
      by_cases hp : S.contains (w.take i) = true
      · rw [if_pos hp] at hd
        obtain ⟨j, _, _, tail, _, hform⟩ :=
          tryJoinersLoop_mem (compoundPartsF S fuel) w i (w.take i) JOINERS d hd
        rw [hform]
        simp
      · rw [if_neg hp] at hd
        simp at hd

/-- Soundness of the navigator: every decomposition it produces is a valid
    split of the word into graph words glued by joiners. -/
theorem compoundPartsF_sound (S : List (List Char)) :
    ∀ (fuel : Nat) (w : List Char),
      ∀ d ∈ compoundPartsF S fuel w, validSplit S d w = true := by
  intro fuel
  induction fuel with
  | zero =>
    intro w d hd
    simp [compoundPartsF] at hd
  | succ fuel IH =>
    intro w d hd
    rw [compoundPartsF] at hd
    by_cases hS : S.contains w = true
    · rw [if_pos hS] at hd
      simp at hd
      subst hd
      have hmem : w ∈ S := by simpa using hS
      simp [validSplit, hmem]
    · rw [if_neg hS] at hd
      simp only [List.mem_flatMap] at hd
      obtain ⟨i, hi, hd⟩ := hd
      by_cases hp : S.contains (w.take i) = true
      · rw [if_pos hp] at hd
        obtain ⟨j, hjmem, hcond, tail, htail, hform⟩ :=
          tryJoinersLoop_mem (compoundPartsF S fuel) w i (w.take i) JOINERS d hd
        have hibound : 1 ≤ i ∧ i < w.length := by
          have := List.mem_range'_1.mp hi
          omega
        have htne : tail ≠ [] := compoundPartsF_ne_nil S fuel _ tail htail
        have hvalid : validSplit S tail (w.drop (i + j.length)) = true :=
          IH (w.drop (i + j.length)) tail htail
        have hpj : w.take i ++ j = w.take (i + j.length) := by
          rcases hcond with rfl | ⟨hlt, heq⟩
          · simp
          · rw [List.take_add, heq]
        have htakelen : (w.take i).length = i := by
          simp only [List.length_take]
          omega
        subst hform
        cases tail with
        | nil => exact absurd rfl htne
        | cons q rest =>
          rw [validSplit]
          simp only [Bool.and_eq_true]
          refine ⟨⟨?_, ?_⟩, ?_⟩
          · rw [List.any_eq_true]
            refine ⟨w.take i, by simpa using hp, ?_⟩
            rw [List.any_eq_true]
            exact ⟨j, hjmem, by simp⟩
          · rw [hpj]
            exact List.isPrefixOf_iff_prefix.mpr (List.take_prefix _ _)
          · have hlen2 : (w.take i ++ j).length = i + j.length := by
              simp [htakelen]
            rw [hlen2]
            exact hvalid
      · rw [if_neg hp] at hd
        simp at hd

/-- Transitivity of the (longer last part, fewer parts) dominance. -/
theorem splitDomTrans (a b c : List (List Char))
    (h1 : (b.getLastD []).length < (a.getLastD []).length
      ∨ ((b.getLastD []).length = (a.getLastD []).length ∧ a.length ≤ b.length))
    (h2 : (c.getLastD []).length < (b.getLastD []).length
      ∨ ((c.getLastD []).length = (b.getLastD []).length ∧ b.length ≤ c.length)) :
    (c.getLastD []).length < (a.getLastD []).length
      ∨ ((c.getLastD []).length = (a.getLastD []).length ∧ a.length ≤ c.length) := by
  omega

/-- The selection fold of sliceCompoundWord dominates its seed and every
    element of the list, and returns the seed or a member. -/
theorem splitFold_spec (xs : List (List (List Char))) :
    ∀ b : List (List Char),
      ((xs.foldl (fun best cand => if betterSplit best cand then cand else best) b) = b
        ∨ (xs.foldl (fun best cand => if betterSplit best cand then cand else best) b) ∈ xs)
      ∧ ((b.getLastD []).length
            < ((xs.foldl (fun best cand => if betterSplit best cand then cand else best) b).getLastD []).length
          ∨ ((b.getLastD []).length
              = ((xs.foldl (fun best cand => if betterSplit best cand then cand else best) b).getLastD []).length
            ∧ (xs.foldl (fun best cand => if betterSplit best cand then cand else best) b).length ≤ b.length))
      ∧ ∀ e ∈ xs,
          ((e.getLastD []).length
              < ((xs.foldl (fun best cand => if betterSplit best cand then cand else best) b).getLastD []).length
            ∨ ((e.getLastD []).length
                = ((xs.foldl (fun best cand => if betterSplit best cand then cand else best) b).getLastD []).length
              ∧ (xs.foldl (fun best cand => if betterSplit best cand then cand else best) b).length ≤ e.length)) := by
  induction xs with
  | nil =>
    intro b
    exact ⟨Or.inl rfl, Or.inr ⟨rfl, le_refl _⟩, by simp⟩
  | cons x xs ih =>
    intro b
    simp only [List.foldl_cons]
    obtain ⟨hmem, hdom, hall⟩ := ih (if betterSplit b x then x else b)
    have hbx : ((b.getLastD []).length < ((if betterSplit b x then x else b).getLastD []).length
          ∨ ((b.getLastD []).length = ((if betterSplit b x then x else b).getLastD []).length
            ∧ (if betterSplit b x then x else b).length ≤ b.length))
        ∧ ((x.getLastD []).length < ((if betterSplit b x then x else b).getLastD []).length
          ∨ ((x.getLastD []).length = ((if betterSplit b x then x else b).getLastD []).length
            ∧ (if betterSplit b x then x else b).length ≤ x.length)) := by
      by_cases h : betterSplit b x = true
      · rw [if_pos h]
        simp only [betterSplit, Bool.or_eq_true, Bool.and_eq_true, decide_eq_true_eq] at h
        constructor
        · omega
        · exact Or.inr ⟨rfl, le_refl _⟩
      · rw [if_neg h]
        simp only [betterSplit, Bool.or_eq_true, Bool.and_eq_true, decide_eq_true_eq] at h
        push_neg at h
        constructor
        · exact Or.inr ⟨rfl, le_refl _⟩
        · omega
    refine ⟨?_, ?_, ?_⟩
    · rcases hmem with hmem | hmem
      · rw [hmem]
        by_cases h : betterSplit b x = true
        · rw [if_pos h]
          exact Or.inr (List.mem_cons_self x xs)
        · rw [if_neg h]
          exact Or.inl rfl
      · exact Or.inr (List.mem_cons_of_mem x hmem)
    · exact splitDomTrans _ _ _ hdom hbx.1
    · intro e he
      rcases List.mem_cons.mp he with rfl | he2
      · exact splitDomTrans _ _ _ hdom hbx.2
      · exact hall e he2

/-- C3 counterexample: with graph words x, sab, c, abc, the word xsabc is
    sliced by the code into x-sab-c (the empty joiner at the first split
    point suppresses the s joiner), although xs-abc is a valid decomposition
    with a strictly longer final part, so the claim's "best among all
    decompositions" fails. -/
theorem C3_counterexample :
    sliceCompoundWord ["x".data, "sab".data, "c".data, "abc".data] "xsabc".data
      = some ["x".data, "sab".data, "c".data]
    ∧ validSplit ["x".data, "sab".data, "c".data, "abc".data]
        ["xs".data, "abc".data] "xsabc".data = true
    ∧ (["x".data, "sab".data, "c".data].getLastD []).length
        < (["xs".data, "abc".data].getLastD []).length := by
  refine ⟨by decide, by decide, by decide⟩

/-- C3 (amended): slice_compound_word returns a decomposition generated by
    the navigator which is valid (each part a graph word with optional
    joiner) and best among the generated decompositions by the
    longest-final-part-then-fewest-parts rule; because the joiner loop stops
    at the first joiner whose remainder decomposes, some valid decompositions
    are never generated, so the optimum is over the generated set only.
    Scenario A: with graph words barn and rannsókn, barnsrannsókn slices to
    barns-rannsókn using the s joiner. -/
theorem C3_slice_best_generated :
    (∀ (S : List (List Char)) (w : List Char) (d : List (List Char)),
        sliceCompoundWord S w = some d →
        (d ∈ compoundParts S w
          ∧ validSplit S d w = true
          ∧ ∀ e ∈ compoundParts S w,
              (e.getLastD []).length < (d.getLastD []).length
              ∨ ((e.getLastD []).length = (d.getLastD []).length
                 ∧ d.length ≤ e.length)))
    ∧ sliceCompoundWord ["barn".data, "rannsókn".data] "barnsrannsókn".data
        = some ["barns".data, "rannsókn".data] := by
  constructor
  · intro S w d h
    rw [sliceCompoundWord] at h
    cases hcp : compoundParts S w with
    | nil =>
      rw [hcp] at h
      simp at h
    | cons x xs =>
      rw [hcp] at h
      obtain hdef : xs.foldl (fun best cand => if betterSplit best cand then cand else best) x
          = d := by simpa using h
      obtain ⟨hmem, hdom, hall⟩ := splitFold_spec xs x
      rw [hdef] at hmem hdom hall
      have hdmem2 : d ∈ x :: xs := by
        rcases hmem with hmem | hmem
        · rw [← hmem]
          exact List.mem_cons_self _ _
        · exact List.mem_cons_of_mem x hmem
      have hdmem : d ∈ compoundParts S w := by
        rw [hcp]
        exact hdmem2
      refine ⟨hdmem2, compoundPartsF_sound S (w.length + 1) w d hdmem, ?_⟩
      intro e he
      rcases List.mem_cons.mp he with rfl | he2
      · exact hdom
      · exact hall e he2
  · decide

/-- C3 witness: the amended optimality property applied to the scenario A
    graph and word. -/
theorem C3_slice_best_generated_witness :
    (["barns".data, "rannsókn".data]
        ∈ compoundParts ["barn".data, "rannsókn".data] "barnsrannsókn".data
      ∧ validSplit ["barn".data, "rannsókn".data]
          ["barns".data, "rannsókn".data] "barnsrannsókn".data = true
      ∧ ∀ e ∈ compoundParts ["barn".data, "rannsókn".data] "barnsrannsókn".data,
          (e.getLastD []).length
              < (["barns".data, "rannsókn".data].getLastD []).length
          ∨ ((e.getLastD []).length
                = (["barns".data, "rannsókn".data].getLastD []).length
             ∧ (["barns".data, "rannsókn".data] : List (List Char)).length ≤ e.length)) :=
  C3_slice_best_generated.1 ["barn".data, "rannsókn".data] "barnsrannsókn".data
    ["barns".data, "rannsókn".data] (by decide)

/-- C1 witness: the general selection property applied to the scenario C
    score list. -/
theorem C1_best_family_selection_witness :
    ((0, (⟨10, none, none⟩ : RScore)) ∈
        [(0, (⟨10, none, none⟩ : RScore)), (1, ⟨7, none, none⟩)]
      ∧ ∀ e ∈ [(0, (⟨10, none, none⟩ : RScore)), (1, ⟨7, none, none⟩)],
          e.2.sc < (⟨10, none, none⟩ : RScore).sc
          ∨ (e.2.sc = (⟨10, none, none⟩ : RScore).sc ∧ 0 ≤ e.1)) :=
  C1_best_family_selection.1 [(0, ⟨10, none, none⟩), (1, ⟨7, none, none⟩)]
    0 ⟨10, none, none⟩ (by decide)

/-! ### C7: DAWG load failure and navigation on an unloaded dictionary -/

/-- C7 counterexample: load assigns the byte buffer before checking the
    signature, so after a failed load (here a 12-byte buffer starting with
    the letter X instead of R) the dictionary is not navigation-safe:
    find walks the malformed buffer and raises (modelled as none) instead
    of completing without error and reporting no match, contradicting the
    claim for a dictionary on which no load has completed successfully. -/
theorem C7_counterexample :
    (loadDawg initDawg
        [88, 101, 121, 110, 105, 114, 68, 97, 119, 103, 33, 10]).2 = false
    ∧ findWord
        (loadDawg initDawg
          [88, 101, 121, 110, 105, 114, 68, 97, 119, 103, 33, 10]).1
        ['a'] = none := by
  constructor
  · decide
  · decide

/-- C7 (amended): a buffer whose first 12 bytes differ from the signature
    makes the load fail, but the buffer is assigned to the dictionary
    nevertheless; a dictionary on which no load has ever been attempted (its
    buffer is still unset) navigates nothing: find reports no match and
    slice_compound_word returns no decomposition, both without error, for
    every word. -/
theorem C7_load_signature :
    (∀ bs : List Nat, bs.take 12 ≠ dawgSignature →
      (loadDawg initDawg bs).2 = false ∧ (loadDawg initDawg bs).1.b = some bs)
    ∧ (∀ w : List Char, findWord initDawg w = some false)
    ∧ (∀ w : List Char, sliceCompoundWordD initDawg w = some none) := by
  refine ⟨fun bs h => ?_, fun w => rfl, fun w => rfl⟩
  simp [loadDawg, initDawg, h]

/-- C7 witness: the amended property at a concrete bad buffer and word. -/
theorem C7_load_signature_witness :
    (loadDawg initDawg [0]).2 = false ∧ findWord initDawg ['a'] = some false :=
  ⟨(C7_load_signature.1 [0] (by decide)).1, C7_load_signature.2.1 ['a']⟩

/-! ### C8: reduction is not independent of set-iteration order -/

/-- C8: the claim that reduction never depends on unordered container
    iteration is false.  The nhm adjacency bonus of _calc_terminal_scores
    (reducer.py 648-652) walks the keys of the previous position's score
    dict — whose order is the iteration order of the unordered set
    finals[i-1] — and bumps the first nhm-first terminal it meets, then
    breaks.  With two distinct nhm-first terminals at position 0 (the same
    set in both runs, shown by the permutation conjunct) and an ambiguous
    so_nh reading at position 1, the bonus lands on a different terminal in
    each iteration order, and the subsequent reduction of the same forest
    under the two resulting score tables prunes to different families
    (family 0 versus family 1). -/
theorem C8_set_order_dependence :
    (c8finalsA 0).Perm (c8finalsB 0)
    ∧ scoresFn (calcTerminalScores c8cfg0 0 2 c8finalsA c8tokens) 0 c8nhmA = 2
    ∧ scoresFn (calcTerminalScores c8cfg0 0 2 c8finalsB c8tokens) 0 c8nhmA = 0
    ∧ (reduceGo (c8rconfig c8finalsA) c8forest).1 = .nt c8info (famsOfList [c8fam0])
    ∧ (reduceGo (c8rconfig c8finalsB) c8forest).1 = .nt c8info (famsOfList [c8fam1])
    ∧ (reduceGo (c8rconfig c8finalsA) c8forest).1
        ≠ (reduceGo (c8rconfig c8finalsB) c8forest).1 := by
  refine ⟨by decide, by decide, by decide, by decide, by decide, by decide⟩

end Reynir
